import Mathlib

/-!
# MPU region layouter: a shallow embedding of `main.c`

`size_t` is the 64-bit unsigned type of the host (`GB(4)` is `2^32`, which only a 64-bit
`unsigned long` holds).  Machine words are natural numbers below `WORD = 2^64`; every
operation that can wrap in C is reduced modulo `WORD` explicitly.  A failing `assert`
aborts the program: functions that contain one return `Option`, `none` being the abort.
-/

namespace MpuLayouter

/-! ## Machine arithmetic on `size_t` -/

/-- Number of values of `size_t`. -/
def WORD : Nat := 2 ^ 64

/-- Unsigned addition of `size_t`, wrapping. -/
def add64 (x y : Nat) : Nat := (x + y) % WORD

/-- Unsigned subtraction of `size_t`, wrapping. -/
def sub64 (x y : Nat) : Nat := (x + WORD - y % WORD) % WORD

/-- Unsigned multiplication of `size_t`, wrapping. -/
def mul64 (x y : Nat) : Nat := (x * y) % WORD

/-- Bitwise complement of a `size_t`. -/
def not64 (x : Nat) : Nat := WORD - 1 - x % WORD

/-! ## Data model -/

/-- Number of hardware regions, `MPU_REGIONS`. -/
def MPU_REGIONS : Nat := 8

/-- Memory block `mem_blk_t`. -/
structure mem_blk_t where
  name : String
  addr : Nat
  size : Nat
deriving DecidableEq

/-- Region descriptor `region_t`; `srd` is a `uint8_t`. -/
structure region_t where
  base_addr : Nat
  size : Nat
  srd : Nat
deriving DecidableEq

/-- The structure `mpu_t`: the array of `MPU_REGIONS` region slots. -/
structure mpu_t where
  regions : List region_t
deriving DecidableEq

/-- Index of the last entry of the table, `SIZE_32B`. -/
def SIZE_32B : Nat := 27

/-- The table `alignment[]`, from `GB(4)` down to `B(32)`. -/
def alignment : List Nat :=
  [ 4 * 1024 * 1024 * 1024, 2 * 1024 * 1024 * 1024, 1 * 1024 * 1024 * 1024,
    512 * 1024 * 1024, 256 * 1024 * 1024, 128 * 1024 * 1024, 64 * 1024 * 1024,
    32 * 1024 * 1024, 16 * 1024 * 1024, 8 * 1024 * 1024, 4 * 1024 * 1024,
    2 * 1024 * 1024, 1 * 1024 * 1024,
    512 * 1024, 256 * 1024, 128 * 1024, 64 * 1024, 32 * 1024, 16 * 1024, 8 * 1024,
    4 * 1024, 2 * 1024, 1 * 1024,
    512, 256, 128, 64, 32 ]

/-! ## Alignment arithmetic -/

/-- `align_up`: `(x + (align - 1)) & ~(align - 1)`. -/
def align_up (x align : Nat) : Nat :=
  (add64 x (sub64 align 1)) &&& (not64 (sub64 align 1))

/-- `align_down`: `x - (x & (align - 1))`. -/
def align_down (x align : Nat) : Nat :=
  sub64 x (x &&& (sub64 align 1))

/-- `is_aligned`. -/
def is_aligned (x align : Nat) : Bool :=
  if 0 = x then true
  else if 0 = align then false
  else if 0 = x % align then true else false

/-- Loop of `is_legal` over the remaining table entries. -/
def is_legal_loop (align : Nat) : List Nat → Bool
  | [] => false
  | a :: rest => if align = a then true else is_legal_loop align rest

/-- `is_legal`: membership in the table. -/
def is_legal (align : Nat) : Bool := is_legal_loop align alignment

/-! ## Subregion mask -/

/-- `calc_srd`.  The three `assert`s abort (`none`); a zero divisor in `%` or `/` (a
`region_size` below 8) is undefined in C and is treated as an abort too.  The mask is
accumulated in a `uint8_t`. -/
def calc_srd (addr region_base region_size : Nat) : Option Nat :=
  if ¬ (addr > 0) then none
  else if region_size = 0 then none
  else if ¬ (0 = region_base % region_size) then none
  else
    let srs := region_size / 8
    if srs = 0 then none
    else
      let subregions := (sub64 addr region_base) / srs
      if ¬ (subregions < 8 / 2) then none
      else
        some ((List.range subregions).foldl (fun srd i => (srd ||| (1 <<< i)) % 256) 0)

/-! ## The two fitters -/

/-- The region written when a fitter finds nothing. -/
def sentinel : region_t := { base_addr := 0, size := 0, srd := 0xff }

/-- Loop of `srd_fit` over the remaining table entries.  The result is `none` when an
assertion of `calc_srd` fails, otherwise the returned flag and the region written. -/
def srd_fit_loop (addr limit : Nat) : List Nat → Option (Bool × region_t)
  | [] => some (false, sentinel)
  | a :: rest =>
    if 0 = addr ∧ a < limit then
      some (true, { base_addr := addr,
                    size := add64 addr (align_up (alignment.getD SIZE_32B 0) a),
                    srd := 0x00 })
    else if addr ≠ 0 ∧ addr > a then
      let quotient := addr / a
      let srs := sub64 addr (mul64 quotient a)
      let size := mul64 srs 8
      if is_legal size = true ∧ add64 (align_down addr size) size ≤ limit then
        match calc_srd addr (mul64 quotient a) size with
        | none => none
        | some m => some (true, { base_addr := mul64 quotient a, size := size, srd := m })
      else srd_fit_loop addr limit rest
    else srd_fit_loop addr limit rest

/-- `srd_fit`: best region in subregion-disable mode. -/
def srd_fit (addr limit : Nat) : Option (Bool × region_t) :=
  srd_fit_loop addr limit alignment

/-- Loop of `std_fit` over the remaining table entries. -/
def std_fit_loop (addr limit : Nat) : List Nat → Bool × region_t
  | [] => (false, sentinel)
  | a :: rest =>
    if 0 = addr ∧ a < limit then
      (true, { base_addr := addr,
               size := add64 addr (align_up (alignment.getD SIZE_32B 0) a),
               srd := 0x00 })
    else if addr ≠ 0 ∧ addr ≥ a then
      if 0 = addr % a ∧ add64 addr a ≤ limit then
        (true, { base_addr := addr, size := a, srd := 0x00 })
      else std_fit_loop addr limit rest
    else std_fit_loop addr limit rest

/-- `std_fit`: best region in standard mode. -/
def std_fit (addr limit : Nat) : Bool × region_t :=
  std_fit_loop addr limit alignment

/-! ## The planner -/

/-- Value of a `region_t` initialised with `{0, 0, 0}`. -/
def zero_region : region_t := { base_addr := 0, size := 0, srd := 0 }

/-- Outcome of one iteration of the loop of `try_fit`. -/
inductive slot_t where
  | unfittable : slot_t
  | chosen : region_t → Nat → slot_t
deriving DecidableEq

/-- Body of the loop of `try_fit` up to the `memcpy`: the two candidates and the choice
between them.  `std_fit` is called only when `srd_fit` returned false (`&&`); otherwise
`std` keeps its initial value.  `none` is an assertion failure inside `srd_fit`. -/
def try_fit_slot (addr addr_end : Nat) : Option slot_t :=
  match srd_fit addr addr_end with
  | none => none
  | some (srd_ok, srd) =>
    if srd_ok = false ∧ (std_fit addr addr_end).1 = false then some slot_t.unfittable
    else
      let std := if srd_ok = false then (std_fit addr addr_end).2 else zero_region
      let srd_next := add64 srd.base_addr srd.size
      let std_next := add64 std.base_addr std.size
      if srd_next > std_next then some (slot_t.chosen srd srd_next)
      else some (slot_t.chosen std std_next)

/-- Loop of `try_fit`: `n` iterations remain, `i` is the slot index. -/
def try_fit_loop (addr_end : Nat) : Nat → Nat → Nat → mpu_t → Option (Int × mpu_t)
  | 0, _, _, mpu => some (0, mpu)
  | n + 1, i, addr, mpu =>
    match try_fit_slot addr addr_end with
    | none => none
    | some slot_t.unfittable => some (-1, mpu)
    | some (slot_t.chosen r addr_next) =>
      let mpu1 : mpu_t := { regions := mpu.regions.set i r }
      if addr_next < addr_end then try_fit_loop addr_end n (i + 1) addr_next mpu1
      else some ((i : Int) + 1, mpu1)

/-- `try_fit`: the returned `int32_t` and the region array after the call; `none` when
an assertion aborted the program. -/
def try_fit (mpu : mpu_t) (mem : mem_blk_t) : Option (Int × mpu_t) :=
  try_fit_loop (add64 mem.addr mem.size) MPU_REGIONS 0 mem.addr mpu

/-- The array `main` passes to `try_fit`: eight slots cleared by `memset`. -/
def mpu_zero : mpu_t := { regions := List.replicate MPU_REGIONS zero_region }

/-- Sample block `rom`. -/
def rom : mem_blk_t := { name := "rom", addr := 0x00000000, size := 1024 * 1024 }

/-- Sample block `sram`. -/
def sram : mem_blk_t := { name := "sram", addr := 0x20000000, size := 384 * 1024 }

/-- Sample block `dram`. -/
def dram : mem_blk_t := { name := "dram", addr := 0x60000000, size := 1000 * 1024 }

/-! ## Properties of regions and plans -/

/-- Legality of a region: its size is a table entry and its base a multiple of the size. -/
def region_legal (r : region_t) : Prop :=
  r.size ∈ alignment ∧ r.base_addr % r.size = 0

/-- Legality of a region can be computed. -/
instance region_legal_decidable (r : region_t) : Decidable (region_legal r) :=
  inferInstanceAs (Decidable (r.size ∈ alignment ∧ r.base_addr % r.size = 0))

/-- Number of consecutive set bits of an 8-bit mask, counted from bit 0. -/
def leading_set_bits (srd : Nat) : Nat :=
  ((List.range 8).takeWhile (fun i => srd.testBit i)).length

/-- First byte a region effectively covers: its base, moved past the disabled leading
subregions when the mask is non-zero. -/
def eff_start (r : region_t) : Nat :=
  if r.srd = 0 then r.base_addr
  else r.base_addr + (r.size / 8) * leading_set_bits r.srd

/-- The effective ranges of the regions, in order, tile `[start, stop)`: each range is
non-empty, begins where the previous one ended, and the last one ends at `stop`. -/
def covers : Nat → List region_t → Nat → Prop
  | start, [], stop => start = stop
  | start, r :: rs, stop =>
    eff_start r = start ∧ start < r.base_addr + r.size ∧ covers (r.base_addr + r.size) rs stop

/-- Tiling of a range by a list of regions can be computed. -/
instance covers_decidable : ∀ (start : Nat) (rs : List region_t) (stop : Nat),
    Decidable (covers start rs stop)
  | start, [], stop => inferInstanceAs (Decidable (start = stop))
  | start, r :: rs, stop =>
    have := covers_decidable (r.base_addr + r.size) rs stop
    inferInstanceAs (Decidable (eff_start r = start ∧ start < r.base_addr + r.size ∧
      covers (r.base_addr + r.size) rs stop))

/-! ## The walk of the planner -/

/-- Address held by `addr` on entry to slot `i` when the loop of `try_fit` is started at
`addr`, or `none` when the loop has left (return or abort) before that slot. -/
def try_fit_addr (addr_end : Nat) : Nat → Nat → Option Nat
  | 0, addr => some addr
  | i + 1, addr =>
    match try_fit_slot addr addr_end with
    | some (slot_t.chosen _ addr_next) =>
      if addr_next < addr_end then try_fit_addr addr_end i addr_next else none
    | _ => none

/-- The loop of `try_fit` without the array: the returned value and the regions copied
into the slots, in slot order. -/
def walk (addr_end : Nat) : Nat → Nat → Nat → Option (Int × List region_t)
  | 0, _, _ => some (0, [])
  | n + 1, i, addr =>
    match try_fit_slot addr addr_end with
    | none => none
    | some slot_t.unfittable => some (-1, [])
    | some (slot_t.chosen r addr_next) =>
      if addr_next < addr_end then
        (walk addr_end n (i + 1) addr_next).map (fun p => (p.1, r :: p.2))
      else some ((i : Int) + 1, [r])

/-- Copy the regions `rs` into consecutive slots starting at slot `i`. -/
def overwrite (regs : List region_t) : Nat → List region_t → List region_t
  | _, [] => regs
  | i, r :: rs => overwrite (regs.set i r) (i + 1) rs

/-! ## Concrete blocks and arrays -/

/-- A block that starts 0x20 bytes into a 256-byte window and ends with it. -/
def window_blk : mem_blk_t := { name := "window", addr := 0x20000020, size := 0xE0 }

/-- The array after `try_fit` on `window_blk`. -/
def window_mpu : mpu_t :=
  { regions := [ { base_addr := 0x20000000, size := 256, srd := 1 },
                 zero_region, zero_region, zero_region, zero_region,
                 zero_region, zero_region, zero_region ] }

/-- A block 28 bytes below the top of the 64-bit address space. -/
def top_blk : mem_blk_t := { name := "top", addr := 2 ^ 64 - 28, size := 8 }

/-- An array whose eight slots all hold the sentinel. -/
def mpu_sentinel : mpu_t := { regions := List.replicate MPU_REGIONS sentinel }

/-- The array after `try_fit` on `rom`. -/
def rom_mpu : mpu_t :=
  { regions := [ { base_addr := 0, size := 512 * 1024, srd := 0 },
                 { base_addr := 512 * 1024, size := 512 * 1024, srd := 0 },
                 zero_region, zero_region, zero_region, zero_region,
                 zero_region, zero_region ] }

/-- The array after `try_fit` on `sram`. -/
def sram_mpu : mpu_t :=
  { regions := [ { base_addr := 0x20000000, size := 256 * 1024, srd := 0 },
                 { base_addr := 0x20040000, size := 128 * 1024, srd := 0 },
                 zero_region, zero_region, zero_region, zero_region,
                 zero_region, zero_region ] }

/-! ## The planner as the specification words it -/

/-- One slot of the specified planner: both fitters are computed, planning fails when both
fail, and otherwise the subregion candidate is chosen exactly when its end
`base_addr + size` is strictly greater than the end of the standard candidate (equal ends
choose the standard candidate).  A fitter that fails contributes the sentinel; ends are
computed in `size_t`, as in the code. -/
def spec_try_fit_slot (addr addr_end : Nat) : Option slot_t :=
  match srd_fit addr addr_end with
  | none => none
  | some (srd_ok, srd) =>
    let std_ok := (std_fit addr addr_end).1
    let std := (std_fit addr addr_end).2
    if srd_ok = false ∧ std_ok = false then some slot_t.unfittable
    else if add64 srd.base_addr srd.size > add64 std.base_addr std.size then
      some (slot_t.chosen srd (add64 srd.base_addr srd.size))
    else some (slot_t.chosen std (add64 std.base_addr std.size))

/-- Slots of the specified planner: the chosen region is recorded in slot `i`; planning
ends with `i + 1` when the chosen end reaches the end of the block, goes on from the
chosen end otherwise, and yields 0 when the budget is used up. -/
def spec_try_fit_loop (addr_end : Nat) : Nat → Nat → Nat → mpu_t → Option (Int × mpu_t)
  | 0, _, _, mpu => some (0, mpu)
  | n + 1, i, addr, mpu =>
    match spec_try_fit_slot addr addr_end with
    | none => none
    | some slot_t.unfittable => some (-1, mpu)
    | some (slot_t.chosen r addr_next) =>
      let mpu1 : mpu_t := { regions := mpu.regions.set i r }
      if addr_next < addr_end then spec_try_fit_loop addr_end n (i + 1) addr_next mpu1
      else some ((i : Int) + 1, mpu1)

/-- The specified planner on a block. -/
def spec_try_fit (mpu : mpu_t) (mem : mem_blk_t) : Option (Int × mpu_t) :=
  spec_try_fit_loop (add64 mem.addr mem.size) MPU_REGIONS 0 mem.addr mpu

/-! ## More concrete blocks and arrays -/

/-- The array after `try_fit` on `dram`. -/
def dram_mpu : mpu_t :=
  { regions := [ { base_addr := 0x60000000, size := 512 * 1024, srd := 0 },
                 { base_addr := 0x60080000, size := 256 * 1024, srd := 0 },
                 { base_addr := 0x600C0000, size := 128 * 1024, srd := 0 },
                 { base_addr := 0x600E0000, size := 64 * 1024, srd := 0 },
                 { base_addr := 0x600F0000, size := 32 * 1024, srd := 0 },
                 { base_addr := 0x600F8000, size := 8 * 1024, srd := 0 },
                 zero_region, zero_region ] }

/-- A 256-byte block at address 0x60. -/
def low_blk : mem_blk_t := { name := "low", addr := 0x60, size := 0x100 }

/-- A 33-byte block at address 0. -/
def short_blk : mem_blk_t := { name := "short", addr := 0, size := 33 }

/-- The array after `try_fit` on `short_blk`. -/
def short_mpu : mpu_t :=
  { regions := [ { base_addr := 0, size := 32, srd := 0 },
                 zero_region, zero_region, zero_region, zero_region,
                 zero_region, zero_region, zero_region ] }

/-- An empty block 28 bytes below the top of the 64-bit address space. -/
def top_empty_blk : mem_blk_t := { name := "top_empty", addr := 2 ^ 64 - 28, size := 0 }

/-! ## Table and alignment arithmetic -/

set_option maxRecDepth 4000 in
theorem alignment_pow_two : ∀ a ∈ alignment, ∃ k ∈ List.range' 5 28, a = 2 ^ k := by
  decide

theorem mem_alignment_iff (a : Nat) : a ∈ alignment ↔ ∃ k, 5 ≤ k ∧ k ≤ 32 ∧ a = 2 ^ k := by
  constructor
  · intro h
    obtain ⟨k, hk, rfl⟩ := alignment_pow_two a h
    rw [List.mem_range'_1] at hk
    exact ⟨k, by omega, by omega, rfl⟩
  · rintro ⟨k, h5, h32, rfl⟩
    interval_cases k <;> decide

theorem is_legal_loop_iff (s : Nat) (l : List Nat) : is_legal_loop s l = true ↔ s ∈ l := by
  induction l with
  | nil => simp [is_legal_loop]
  | cons a rest ih =>
    by_cases h : s = a
    · simp [is_legal_loop, h]
    · simp [is_legal_loop, h, ih]

theorem is_legal_iff (s : Nat) : is_legal s = true ↔ s ∈ alignment :=
  is_legal_loop_iff s alignment

theorem sub64_of_le {x y : Nat} (hx : x < WORD) (hy : y ≤ x) : sub64 x y = x - y := by
  unfold sub64
  have hyw : y < WORD := by omega
  rw [Nat.mod_eq_of_lt hyw]
  have : x + WORD - y = (x - y) + WORD := by omega
  rw [this, Nat.add_mod_right, Nat.mod_eq_of_lt (by omega)]

theorem two_pow_lt_WORD {k : Nat} (hk : k ≤ 32) : 2 ^ k < WORD := by
  have : 2 ^ k ≤ 2 ^ 32 := Nat.pow_le_pow_right (by decide) hk
  have h2 : (2:Nat) ^ 32 < WORD := by decide
  omega

theorem and_mask (x k : Nat) (hk : k ≤ 32) : x &&& sub64 (2 ^ k) 1 = x % 2 ^ k := by
  have hp : 0 < 2 ^ k := Nat.two_pow_pos k
  rw [sub64_of_le (two_pow_lt_WORD hk) (by omega)]
  exact Nat.and_pow_two_sub_one_eq_mod x k

theorem align_down_pow (x k : Nat) (hx : x < WORD) (hk : k ≤ 32) :
    align_down x (2 ^ k) = x - x % 2 ^ k := by
  unfold align_down
  rw [and_mask x k hk]
  exact sub64_of_le hx (Nat.mod_le _ _)

theorem align_up_32 : ∀ a ∈ alignment, align_up (alignment.getD SIZE_32B 0) a = a := by
  decide

/-! ## The subregion candidate -/

theorem calc_srd_some {addr rb rs m : Nat} (h : calc_srd addr rb rs = some m) :
    0 < addr ∧ rs ≠ 0 ∧ rb % rs = 0 ∧ rs / 8 ≠ 0 ∧ sub64 addr rb / (rs / 8) < 4 ∧
    m = (List.range (sub64 addr rb / (rs / 8))).foldl
          (fun srd i => (srd ||| (1 <<< i)) % 256) 0 := by
  unfold calc_srd at h
  dsimp only at h
  split_ifs at h with h1 h2 h3 h4 h5
  simp only [Option.some.injEq] at h
  refine ⟨by omega, h2, by omega, h4, by omega, h.symm⟩

theorem add_mod_of_mod_eq_zero {b s n : Nat} (hb : b % n = 0) (hs : s < n) :
    (b + s) % n = s := by
  obtain ⟨c, rfl⟩ := Nat.dvd_of_mod_eq_zero hb
  rw [Nat.mul_add_mod]
  exact Nat.mod_eq_of_lt hs

/-- Arithmetic of one accepted candidate of `srd_fit`. -/
theorem srd_candidate {addr limit a m : Nat} (haw : addr < WORD) (ha : a ∈ alignment)
    (hlegal : is_legal (mul64 (sub64 addr (mul64 (addr / a) a)) 8) = true)
    (hlim : add64 (align_down addr (mul64 (sub64 addr (mul64 (addr / a) a)) 8))
              (mul64 (sub64 addr (mul64 (addr / a) a)) 8) ≤ limit)
    (hc : calc_srd addr (mul64 (addr / a) a) (mul64 (sub64 addr (mul64 (addr / a) a)) 8) = some m) :
    mul64 (addr / a) a = addr - addr % a ∧
    mul64 (sub64 addr (mul64 (addr / a) a)) 8 = 8 * (addr % a) ∧
    8 * (addr % a) ∈ alignment ∧ (addr - addr % a) % (8 * (addr % a)) = 0 ∧ m = 1 ∧
    add64 (addr - addr % a) (8 * (addr % a)) ≤ limit := by
  obtain ⟨j, hj5, hj32, rfl⟩ := (mem_alignment_iff a).1 ha
  have hapos : 0 < 2 ^ j := Nat.two_pow_pos j
  have ha32 : 2 ^ j ≤ 2 ^ 32 := Nat.pow_le_pow_right (by decide) hj32
  have hW : WORD = 2 ^ 64 := rfl
  have hdm : addr / 2 ^ j * 2 ^ j + addr % 2 ^ j = addr := Nat.div_add_mod' addr (2 ^ j)
  have hslt : addr % 2 ^ j < 2 ^ j := Nat.mod_lt _ hapos
  have hq : mul64 (addr / 2 ^ j) (2 ^ j) = addr - addr % 2 ^ j := by
    unfold mul64
    rw [Nat.mod_eq_of_lt (by omega)]
    omega
  have hs : sub64 addr (addr - addr % 2 ^ j) = addr % 2 ^ j := by
    rw [sub64_of_le haw (by omega)]
    omega
  have hsize : mul64 (addr % 2 ^ j) 8 = 8 * (addr % 2 ^ j) := by
    unfold mul64
    rw [Nat.mod_eq_of_lt (by norm_num at ha32 hW; omega)]
    omega
  rw [hq, hs, hsize] at hlegal hlim hc
  rw [hq, hs, hsize]
  have hmem := (is_legal_iff _).1 hlegal
  obtain ⟨k, hk5, hk32, hk⟩ := (mem_alignment_iff _).1 hmem
  obtain ⟨-, -, hbase, -, -, hm⟩ := calc_srd_some hc
  have hspos : 0 < addr % 2 ^ j := by
    have : 0 < 2 ^ k := Nat.two_pow_pos k
    omega
  have hmod : addr % (8 * (addr % 2 ^ j)) = addr % 2 ^ j := by
    have h1 := add_mod_of_mod_eq_zero hbase (by omega : addr % 2 ^ j < 8 * (addr % 2 ^ j))
    rwa [Nat.sub_add_cancel (by omega)] at h1
  have had : align_down addr (8 * (addr % 2 ^ j)) = addr - addr % 2 ^ j := by
    rw [hk, align_down_pow addr k haw hk32, ← hk, hmod]
  have hsub : addr % 2 ^ j / (8 * (addr % 2 ^ j) / 8) = 1 := by
    rw [Nat.mul_div_cancel_left _ (by decide : 0 < 8)]
    exact Nat.div_self hspos
  rw [hs, hsub] at hm
  rw [had] at hlim
  refine ⟨rfl, rfl, hmem, hbase, ?_, hlim⟩
  rw [hm]
  decide

/-! ## The fitter loops -/

/-- A successful `srd_fit` at a non-zero address: the region is `{addr - s, 8 * s, 0x01}`
for the remainder `s` of `addr` by the matching table entry. -/
theorem srd_fit_loop_true {addr limit : Nat} (ha : 0 < addr) (haw : addr < WORD) :
    ∀ l : List Nat, (∀ a ∈ l, a ∈ alignment) → ∀ r : region_t,
      srd_fit_loop addr limit l = some (true, r) →
      ∃ s, 0 < s ∧ s < addr ∧ r = { base_addr := addr - s, size := 8 * s, srd := 1 } ∧
        8 * s ∈ alignment ∧ (addr - s) % (8 * s) = 0 ∧ add64 (addr - s) (8 * s) ≤ limit := by
  intro l
  induction l with
  | nil => intro _ r h; simp [srd_fit_loop] at h
  | cons a rest ih =>
    intro hl r h
    have hrest : ∀ b ∈ rest, b ∈ alignment := fun b hb => hl b (List.mem_cons_of_mem _ hb)
    have ham : a ∈ alignment := hl a (List.mem_cons_self _ _)
    unfold srd_fit_loop at h
    have h0 : ¬ (0 = addr ∧ a < limit) := by omega
    rw [if_neg h0] at h
    dsimp only at h
    split_ifs at h with h1 h2
    · cases hc : calc_srd addr (mul64 (addr / a) a) (mul64 (sub64 addr (mul64 (addr / a) a)) 8) with
      | none => rw [hc] at h; simp at h
      | some m =>
        rw [hc] at h
        simp only [Option.some.injEq, Prod.mk.injEq, true_and] at h
        obtain ⟨e1, e2, e3, e4, e5, e6⟩ := srd_candidate haw ham h2.1 h2.2 hc
        obtain ⟨k, hk5, hk32, hk⟩ := (mem_alignment_iff _).1 e3
        have hkpos : 0 < 2 ^ k := Nat.two_pow_pos k
        have hle : addr % a ≤ addr := Nat.mod_le _ _
        obtain ⟨j, -, -, hj⟩ := (mem_alignment_iff _).1 ham
        have hjpos : 0 < 2 ^ j := Nat.two_pow_pos j
        have hlt : addr % a < a := Nat.mod_lt _ (by omega)
        refine ⟨addr % a, by omega, by omega, ?_, e3, e4, e6⟩
        rw [← h, e2, e1, e5]
    · exact ih hrest r h
    · exact ih hrest r h

/-- A failing `srd_fit` leaves the sentinel. -/
theorem srd_fit_loop_false {addr limit : Nat} :
    ∀ l : List Nat, ∀ r : region_t, srd_fit_loop addr limit l = some (false, r) → r = sentinel := by
  intro l
  induction l with
  | nil => intro r h; simp [srd_fit_loop] at h; exact h.symm
  | cons a rest ih =>
    intro r h
    unfold srd_fit_loop at h
    dsimp only at h
    split_ifs at h with h1 h2 h3
    · simp at h
    · cases hc : calc_srd addr (mul64 (addr / a) a) (mul64 (sub64 addr (mul64 (addr / a) a)) 8) with
      | none => rw [hc] at h; simp at h
      | some m => rw [hc] at h; simp at h
    · exact ih r h
    · exact ih r h

/-- At address 0 the two fitters run the same code. -/
theorem srd_fit_loop_zero (limit : Nat) :
    ∀ l : List Nat, srd_fit_loop 0 limit l = some (std_fit_loop 0 limit l) := by
  intro l
  induction l with
  | nil => rfl
  | cons a rest ih =>
    unfold srd_fit_loop std_fit_loop
    by_cases h : a < limit
    · simp [h]
    · simp [h, ih]

/-- The loop of `std_fit` at address 0 is a first-match search. -/
theorem std_fit_loop_zero (limit : Nat) :
    ∀ l : List Nat, std_fit_loop 0 limit l =
      match l.find? (fun a => decide (a < limit)) with
      | some a => (true, { base_addr := 0,
                           size := add64 0 (align_up (alignment.getD SIZE_32B 0) a), srd := 0 })
      | none => (false, sentinel) := by
  intro l
  induction l with
  | nil => rfl
  | cons a rest ih =>
    unfold std_fit_loop
    by_cases h : a < limit
    · simp [h]
    · simp [h, ih]

/-- The loop of `std_fit` at a non-zero address is a first-match search. -/
theorem std_fit_loop_pos {addr : Nat} (ha : 0 < addr) (limit : Nat) :
    ∀ l : List Nat, std_fit_loop addr limit l =
      match l.find? (fun a => decide (a ≤ addr ∧ addr % a = 0 ∧ add64 addr a ≤ limit)) with
      | some a => (true, { base_addr := addr, size := a, srd := 0 })
      | none => (false, sentinel) := by
  intro l
  induction l with
  | nil => rfl
  | cons a rest ih =>
    unfold std_fit_loop
    have h0 : ¬ (0 = addr ∧ a < limit) := by omega
    rw [if_neg h0]
    by_cases h1 : a ≤ addr
    · by_cases h2 : addr % a = 0 ∧ add64 addr a ≤ limit
      · have h2' : 0 = addr % a ∧ add64 addr a ≤ limit := ⟨h2.1.symm, h2.2⟩
        have h3 : addr ≠ 0 ∧ addr ≥ a := ⟨by omega, h1⟩
        rw [if_pos h3, if_pos h2']
        simp [List.find?, h1, h2.1, h2.2]
      · have h2' : ¬ (0 = addr % a ∧ add64 addr a ≤ limit) := fun h => h2 ⟨h.1.symm, h.2⟩
        have h3 : addr ≠ 0 ∧ addr ≥ a := ⟨by omega, h1⟩
        have hd : decide (a ≤ addr ∧ addr % a = 0 ∧ add64 addr a ≤ limit) = false := by
          simp only [decide_eq_false_iff_not]; tauto
        rw [if_pos h3, if_neg h2', ih, List.find?, hd]
    · have h3 : ¬ (addr ≠ 0 ∧ addr ≥ a) := by omega
      have hd : decide (a ≤ addr ∧ addr % a = 0 ∧ add64 addr a ≤ limit) = false := by
        simp only [decide_eq_false_iff_not]; tauto
      rw [if_neg h3, ih, List.find?, hd]

/-! ## One iteration of the planner -/

theorem add_le_WORD_of_aligned {b n : Nat} (hn : n ∈ alignment) (hb : b % n = 0)
    (hbw : b < WORD) : b + n ≤ WORD := by
  obtain ⟨k, -, hk32, rfl⟩ := (mem_alignment_iff n).1 hn
  obtain ⟨c, rfl⟩ := Nat.dvd_of_mod_eq_zero hb
  have hW : WORD = 2 ^ k * 2 ^ (64 - k) := by
    unfold WORD
    rw [← Nat.pow_add]; congr 1; omega
  rw [hW] at hbw ⊢
  have hc : c < 2 ^ (64 - k) := Nat.lt_of_mul_lt_mul_left hbw
  calc 2 ^ k * c + 2 ^ k = 2 ^ k * (c + 1) := by ring
    _ ≤ 2 ^ k * 2 ^ (64 - k) := Nat.mul_le_mul_left _ hc

theorem alignment_le {n : Nat} (hn : n ∈ alignment) : 32 ≤ n ∧ n ≤ 2 ^ 32 := by
  obtain ⟨k, hk5, hk32, rfl⟩ := (mem_alignment_iff n).1 hn
  have h1 : 2 ^ 5 ≤ 2 ^ k := Nat.pow_le_pow_right (by decide : 0 < 2) hk5
  have h2 : 2 ^ k ≤ 2 ^ 32 := Nat.pow_le_pow_right (by decide : 0 < 2) hk32
  exact ⟨le_trans (by decide : 32 ≤ 2 ^ 5) h1, h2⟩

theorem add64_of_lt {x y : Nat} (h : x + y < WORD) : add64 x y = x + y :=
  Nat.mod_eq_of_lt h

theorem add64_wrap {x y : Nat} (h : x + y = WORD) : add64 x y = 0 := by
  unfold add64; rw [h]; exact Nat.mod_self _

/-- What one iteration of `try_fit` can choose. -/
theorem try_fit_slot_chosen {addr e next : Nat} {r : region_t} (haw : addr < WORD)
    (h : try_fit_slot addr e = some (slot_t.chosen r next)) :
    (region_legal r ∧ r.srd ≤ 1 ∧ eff_start r = addr ∧ r.base_addr + r.size = next ∧
        addr < next ∧ next ≤ e ∧ next ≤ addr + 2 ^ 32) ∨
    (next = 0 ∧ WORD < addr + 2 ^ 32 ∧ r = zero_region) ∨
    (next = 0 ∧ WORD ≤ addr + 2 ^ 32 ∧ region_legal r ∧ r.srd = 0 ∧ eff_start r = addr) := by
  have hW : WORD = 2 ^ 64 := rfl
  unfold try_fit_slot at h
  cases hs : srd_fit addr e with
  | none => rw [hs] at h; simp at h
  | some p =>
    obtain ⟨ok, srd⟩ := p
    rw [hs] at h
    dsimp only at h
    cases ok with
    | true =>
      simp only [Bool.true_eq_false, false_and, if_false] at h
      have hz : add64 zero_region.base_addr zero_region.size = 0 := by decide
      rw [hz] at h
      rcases Nat.eq_zero_or_pos addr with h0 | hpos
      · subst h0
        unfold srd_fit at hs
        rw [srd_fit_loop_zero, std_fit_loop_zero] at hs
        cases hf : alignment.find? (fun a => decide (a < e)) with
        | none => rw [hf] at hs; simp at hs
        | some a =>
          rw [hf] at hs
          have hmem : a ∈ alignment := List.mem_of_find?_eq_some hf
          have hlt : a < e := by simpa using List.find?_some hf
          have hb := alignment_le hmem
          have hsz : add64 0 (align_up (alignment.getD SIZE_32B 0) a) = a := by
            rw [align_up_32 a hmem]
            have := @add64_of_lt 0 a (by omega)
            omega
          simp only [hsz, Option.some.injEq, Prod.mk.injEq, true_and] at hs
          subst hs
          have hn : add64 0 a = a := by
            have := @add64_of_lt 0 a (by omega)
            omega
          simp only [] at h
          rw [hn, if_pos (by omega)] at h
          simp only [Option.some.injEq, slot_t.chosen.injEq] at h
          obtain ⟨rfl, rfl⟩ := h
          left
          refine ⟨⟨hmem, by simp⟩, by simp, by simp [eff_start], by simp, by omega, by omega, by omega⟩
      · obtain ⟨s, hs0, hsa, rfl, hmem, hbase, hlim⟩ :=
          srd_fit_loop_true hpos haw alignment (fun a ha => ha) srd hs
        have hb := alignment_le hmem
        have hle := add_le_WORD_of_aligned hmem hbase (by omega)
        simp only [] at h
        rcases Nat.lt_or_eq_of_le hle with hlt | heq
        · have hn : add64 (addr - s) (8 * s) = addr - s + 8 * s := add64_of_lt hlt
          rw [hn] at h hlim
          rw [if_pos (by omega)] at h
          simp only [Option.some.injEq, slot_t.chosen.injEq] at h
          obtain ⟨rfl, rfl⟩ := h
          left
          refine ⟨⟨hmem, hbase⟩, by simp, ?_, rfl, by omega, hlim, by omega⟩
          have hl1 : leading_set_bits 1 = 1 := by decide
          simp only [eff_start, hl1]
          rw [if_neg (by decide)]
          omega
        · have hn : add64 (addr - s) (8 * s) = 0 := add64_wrap heq
          rw [hn] at h
          rw [if_neg (by omega)] at h
          simp only [Option.some.injEq, slot_t.chosen.injEq] at h
          obtain ⟨rfl, rfl⟩ := h
          right; left
          exact ⟨rfl, by omega, rfl⟩
    | false =>
      have hsen := srd_fit_loop_false alignment srd hs
      subst hsen
      have hz : add64 sentinel.base_addr sentinel.size = 0 := by decide
      rw [hz] at h
      cases hstd : (std_fit addr e).1 with
      | false => rw [hstd] at h; simp at h
      | true =>
        rw [hstd] at h
        simp only [Bool.true_eq_false, and_false, if_false, if_true] at h
        rw [if_neg (by omega)] at h
        simp only [Option.some.injEq, slot_t.chosen.injEq] at h
        obtain ⟨rfl, rfl⟩ := h
        rcases Nat.eq_zero_or_pos addr with h0 | hpos
        · subst h0
          unfold srd_fit at hs
          rw [srd_fit_loop_zero] at hs
          simp only [Option.some.injEq] at hs
          unfold std_fit at hstd
          rw [hs] at hstd
          simp at hstd
        · unfold std_fit at hstd ⊢
          rw [std_fit_loop_pos hpos] at hstd ⊢
          cases hf : alignment.find?
              (fun a => decide (a ≤ addr ∧ addr % a = 0 ∧ add64 addr a ≤ e)) with
          | none => rw [hf] at hstd; simp at hstd
          | some a =>
            have hmem : a ∈ alignment := List.mem_of_find?_eq_some hf
            have hp : a ≤ addr ∧ addr % a = 0 ∧ add64 addr a ≤ e := by
              simpa using List.find?_some hf
            have hb := alignment_le hmem
            have hle := add_le_WORD_of_aligned hmem hp.2.1 haw
            simp only []
            rcases Nat.lt_or_eq_of_le hle with hlt | heq
            · have hn : add64 addr a = addr + a := add64_of_lt hlt
              left
              rw [hn] at hp
              refine ⟨⟨hmem, hp.2.1⟩, by simp, by simp [eff_start], hn.symm, ?_, ?_, ?_⟩
              · rw [hn]; omega
              · rw [hn]; exact hp.2.2
              · rw [hn]; omega
            · have hn : add64 addr a = 0 := add64_wrap heq
              right; right
              exact ⟨hn, by omega, ⟨hmem, hp.2.1⟩, by simp, by simp [eff_start]⟩

/-! ## The planner loop and the region array -/

theorem try_fit_loop_eq_walk (e : Nat) :
    ∀ (n i addr : Nat) (mpu : mpu_t),
      try_fit_loop e n i addr mpu =
        (walk e n i addr).map (fun p => (p.1, { regions := overwrite mpu.regions i p.2 })) := by
  intro n
  induction n with
  | zero => intro i addr mpu; rfl
  | succ n ih =>
    intro i addr mpu
    unfold try_fit_loop walk
    cases hs : try_fit_slot addr e with
    | none => rfl
    | some sl =>
      cases sl with
      | unfittable => rfl
      | chosen r next =>
        dsimp only
        by_cases hlt : next < e
        · rw [if_pos hlt, if_pos hlt, ih]
          cases walk e n (i + 1) next with
          | none => rfl
          | some p => rfl
        · rw [if_neg hlt, if_neg hlt]
          rfl

theorem overwrite_length (rs : List region_t) :
    ∀ (regs : List region_t) (i : Nat), (overwrite regs i rs).length = regs.length := by
  induction rs with
  | nil => intro regs i; rfl
  | cons r rs ih => intro regs i; simp [overwrite, ih]

theorem overwrite_getElem? (rs : List region_t) :
    ∀ (regs : List region_t) (i j : Nat), i + rs.length ≤ regs.length →
      (overwrite regs i rs)[j]? =
        if i ≤ j ∧ j < i + rs.length then rs[j - i]? else regs[j]? := by
  induction rs with
  | nil =>
    intro regs i j _
    have h : ¬ (i ≤ j ∧ j < i + ([] : List region_t).length) := by simp
    rw [if_neg h]
    rfl
  | cons r rs ih =>
    intro regs i j hlen
    simp only [List.length_cons] at hlen
    unfold overwrite
    rw [ih _ _ _ (by simp; omega)]
    by_cases h1 : i + 1 ≤ j ∧ j < i + 1 + rs.length
    · have h2 : i ≤ j ∧ j < i + (r :: rs).length := by simp; omega
      rw [if_pos h1, if_pos h2]
      have : j - i = (j - (i + 1)) + 1 := by omega
      rw [this, List.getElem?_cons_succ]
    · rw [if_neg h1]
      by_cases h3 : j = i
      · subst h3
        have h2 : j ≤ j ∧ j < j + (r :: rs).length := by simp
        rw [if_pos h2, Nat.sub_self]
        have hj : j < regs.length := by omega
        simp [List.getElem?_set_self, hj]
      · have h2 : ¬ (i ≤ j ∧ j < i + (r :: rs).length) := by simp; omega
        rw [if_neg h2, List.getElem?_set_ne (by omega)]

theorem overwrite_take (rs regs : List region_t) (h : rs.length ≤ regs.length) :
    (overwrite regs 0 rs).take rs.length = rs := by
  apply List.ext_getElem?
  intro j
  rw [List.getElem?_take]
  by_cases hj : j < rs.length
  · rw [if_pos hj, overwrite_getElem? rs regs 0 j (by omega), if_pos (by omega)]
    simp
  · rw [if_neg hj]
    simp at hj
    exact (List.getElem?_eq_none hj).symm

/-- Returned value against the number of slots filled. -/
theorem walk_ret (e : Nat) :
    ∀ (n i addr : Nat) (ret : Int) (rs : List region_t),
      walk e n i addr = some (ret, rs) →
      rs.length ≤ n ∧
      (ret = -1 ∨ (ret = 0 ∧ rs.length = n) ∨ (1 ≤ rs.length ∧ ret = (i : Int) + rs.length)) := by
  intro n
  induction n with
  | zero =>
    intro i addr ret rs h
    simp only [walk, Option.some.injEq, Prod.mk.injEq] at h
    obtain ⟨rfl, rfl⟩ := h
    simp
  | succ n ih =>
    intro i addr ret rs h
    unfold walk at h
    cases hs : try_fit_slot addr e with
    | none => rw [hs] at h; simp at h
    | some sl =>
      rw [hs] at h
      cases sl with
      | unfittable =>
        simp only [Option.some.injEq, Prod.mk.injEq] at h
        obtain ⟨rfl, rfl⟩ := h
        simp
      | chosen r next =>
        dsimp only at h
        by_cases hlt : next < e
        · rw [if_pos hlt] at h
          cases hw : walk e n (i + 1) next with
          | none => rw [hw] at h; simp at h
          | some p =>
            obtain ⟨ret1, rs1⟩ := p
            rw [hw] at h
            simp only [Option.map_some', Option.some.injEq, Prod.mk.injEq] at h
            obtain ⟨rfl, rfl⟩ := h
            obtain ⟨h1, h2⟩ := ih (i + 1) next ret1 rs1 hw
            refine ⟨by simp; omega, ?_⟩
            rcases h2 with h2 | ⟨h2, h3⟩ | ⟨h2, h3⟩
            · exact Or.inl h2
            · exact Or.inr (Or.inl ⟨h2, by simp; omega⟩)
            · refine Or.inr (Or.inr ⟨by simp, ?_⟩)
              rw [h3]; push_cast; simp only [List.length_cons]; push_cast; ring
        · rw [if_neg hlt] at h
          simp only [Option.some.injEq, Prod.mk.injEq] at h
          obtain ⟨rfl, rfl⟩ := h
          refine ⟨by simp, Or.inr (Or.inr ⟨by simp, by simp⟩)⟩

/-- Once the address has wrapped to the bottom of the address space the remaining slots
cannot reach the end of the block. -/
theorem walk_low (e : Nat) (he : e < WORD) :
    ∀ (n i addr : Nat) (ret : Int) (rs : List region_t),
      addr + n * 2 ^ 32 < e → walk e n i addr = some (ret, rs) → ret ≤ 0 := by
  have hW : WORD = 2 ^ 64 := rfl
  intro n
  induction n with
  | zero =>
    intro i addr ret rs _ h
    simp only [walk, Option.some.injEq, Prod.mk.injEq] at h
    omega
  | succ n ih =>
    intro i addr ret rs hb h
    unfold walk at h
    cases hs : try_fit_slot addr e with
    | none => rw [hs] at h; simp at h
    | some sl =>
      rw [hs] at h
      cases sl with
      | unfittable =>
        simp only [Option.some.injEq, Prod.mk.injEq] at h
        omega
      | chosen r next =>
        dsimp only at h
        have hnext : next ≤ addr + 2 ^ 32 := by
          rcases try_fit_slot_chosen (by omega) hs with h1 | h1 | h1
          · exact h1.2.2.2.2.2.2
          · omega
          · omega
        have hlt : next < e := by
          have : (n + 1) * 2 ^ 32 = n * 2 ^ 32 + 2 ^ 32 := by ring
          omega
        rw [if_pos hlt] at h
        cases hw : walk e n (i + 1) next with
        | none => rw [hw] at h; simp at h
        | some p =>
          obtain ⟨ret1, rs1⟩ := p
          rw [hw] at h
          simp only [Option.map_some', Option.some.injEq, Prod.mk.injEq] at h
          obtain ⟨rfl, rfl⟩ := h
          refine ih (i + 1) next ret1 rs1 ?_ hw
          have : (n + 1) * 2 ^ 32 = n * 2 ^ 32 + 2 ^ 32 := by ring
          omega

/-- Coverage along the loop. -/
theorem walk_covers (e : Nat) (he : e < WORD) :
    ∀ (n i addr : Nat) (ret : Int) (rs : List region_t),
      n ≤ 8 → addr ≤ e → walk e n i addr = some (ret, rs) → 1 ≤ ret → covers addr rs e := by
  have hW : WORD = 2 ^ 64 := rfl
  intro n
  induction n with
  | zero =>
    intro i addr ret rs _ _ h hr
    simp only [walk, Option.some.injEq, Prod.mk.injEq] at h
    omega
  | succ n ih =>
    intro i addr ret rs hn hae h hr
    unfold walk at h
    cases hs : try_fit_slot addr e with
    | none => rw [hs] at h; simp at h
    | some sl =>
      rw [hs] at h
      cases sl with
      | unfittable =>
        simp only [Option.some.injEq, Prod.mk.injEq] at h
        omega
      | chosen r next =>
        dsimp only at h
        have hslot := try_fit_slot_chosen (by omega) hs
        by_cases hlt : next < e
        · rw [if_pos hlt] at h
          cases hw : walk e n (i + 1) next with
          | none => rw [hw] at h; simp at h
          | some p =>
            obtain ⟨ret1, rs1⟩ := p
            rw [hw] at h
            simp only [Option.map_some', Option.some.injEq, Prod.mk.injEq] at h
            obtain ⟨rfl, rfl⟩ := h
            rcases hslot with h1 | h1 | h1
            · obtain ⟨-, -, hst, hnx, hgt, -, -⟩ := h1
              refine ⟨hst, by omega, ?_⟩
              rw [hnx]
              exact ih (i + 1) next ret1 rs1 (by omega) (by omega) hw hr
            · exfalso
              have := walk_low e he n (i + 1) next ret1 rs1 (by omega) hw
              omega
            · exfalso
              have := walk_low e he n (i + 1) next ret1 rs1 (by omega) hw
              omega
        · rw [if_neg hlt] at h
          simp only [Option.some.injEq, Prod.mk.injEq] at h
          obtain ⟨-, rfl⟩ := h
          rcases hslot with h1 | h1 | h1
          · obtain ⟨-, -, hst, hnx, hgt, hle, -⟩ := h1
            refine ⟨hst, by omega, ?_⟩
            show r.base_addr + r.size = e
            omega
          · omega
          · omega

/-- A property of the chosen regions that holds along an invariant of the address holds
for every region the loop copies into a slot. -/
theorem walk_all (e : Nat) (P : region_t → Prop) (Inv : Nat → Prop)
    (hstep : ∀ addr r next, Inv addr → try_fit_slot addr e = some (slot_t.chosen r next) →
      P r ∧ (next < e → Inv next)) :
    ∀ (n i addr : Nat) (ret : Int) (rs : List region_t),
      Inv addr → walk e n i addr = some (ret, rs) → ∀ r ∈ rs, P r := by
  intro n
  induction n with
  | zero =>
    intro i addr ret rs _ h
    simp only [walk, Option.some.injEq, Prod.mk.injEq] at h
    obtain ⟨-, rfl⟩ := h
    simp
  | succ n ih =>
    intro i addr ret rs hinv h
    unfold walk at h
    cases hs : try_fit_slot addr e with
    | none => rw [hs] at h; simp at h
    | some sl =>
      rw [hs] at h
      cases sl with
      | unfittable =>
        simp only [Option.some.injEq, Prod.mk.injEq] at h
        obtain ⟨-, rfl⟩ := h
        simp
      | chosen r next =>
        dsimp only at h
        obtain ⟨hP, hnext⟩ := hstep addr r next hinv hs
        by_cases hlt : next < e
        · rw [if_pos hlt] at h
          cases hw : walk e n (i + 1) next with
          | none => rw [hw] at h; simp at h
          | some p =>
            obtain ⟨ret1, rs1⟩ := p
            rw [hw] at h
            simp only [Option.map_some', Option.some.injEq, Prod.mk.injEq] at h
            obtain ⟨-, rfl⟩ := h
            intro r1 hr1
            rcases List.mem_cons.1 hr1 with rfl | hr1
            · exact hP
            · exact ih (i + 1) next ret1 rs1 (hnext hlt) hw r1 hr1
        · rw [if_neg hlt] at h
          simp only [Option.some.injEq, Prod.mk.injEq] at h
          obtain ⟨-, rfl⟩ := h
          intro r1 hr1
          rcases List.mem_singleton.1 hr1 with rfl
          exact hP

/-- An invariant of the address holds at every slot the loop reaches. -/
theorem try_fit_addr_inv (e : Nat) (Inv : Nat → Prop)
    (hstep : ∀ addr r next, Inv addr → try_fit_slot addr e = some (slot_t.chosen r next) →
      next < e → Inv next) :
    ∀ (i addr a : Nat), Inv addr → try_fit_addr e i addr = some a → Inv a := by
  intro i
  induction i with
  | zero =>
    intro addr a hinv h
    simp only [try_fit_addr, Option.some.injEq] at h
    exact h ▸ hinv
  | succ i ih =>
    intro addr a hinv h
    unfold try_fit_addr at h
    cases hs : try_fit_slot addr e with
    | none => rw [hs] at h; simp at h
    | some sl =>
      rw [hs] at h
      cases sl with
      | unfittable => simp at h
      | chosen r next =>
        dsimp only at h
        by_cases hlt : next < e
        · rw [if_pos hlt] at h
          exact ih next a (hstep addr r next hinv hs hlt) h
        · rw [if_neg hlt] at h
          simp at h

/-- The loop returns -1 exactly when it reaches a slot at which nothing fits. -/
theorem walk_unfittable_iff (e : Nat) :
    ∀ (n i addr : Nat),
      (∃ rs, walk e n i addr = some (-1, rs)) ↔
        ∃ j, j < n ∧ ∃ a, try_fit_addr e j addr = some a ∧
          try_fit_slot a e = some slot_t.unfittable := by
  intro n
  induction n with
  | zero =>
    intro i addr
    simp [walk]
  | succ n ih =>
    intro i addr
    constructor
    · rintro ⟨rs, h⟩
      unfold walk at h
      cases hs : try_fit_slot addr e with
      | none => rw [hs] at h; simp at h
      | some sl =>
        rw [hs] at h
        cases sl with
        | unfittable => exact ⟨0, by omega, addr, rfl, hs⟩
        | chosen r next =>
          dsimp only at h
          by_cases hlt : next < e
          · rw [if_pos hlt] at h
            cases hw : walk e n (i + 1) next with
            | none => rw [hw] at h; simp at h
            | some p =>
              obtain ⟨ret1, rs1⟩ := p
              rw [hw] at h
              simp only [Option.map_some', Option.some.injEq, Prod.mk.injEq] at h
              obtain ⟨rfl, -⟩ := h
              obtain ⟨j, hj, a, ha, hu⟩ := (ih (i + 1) next).1 ⟨rs1, hw⟩
              refine ⟨j + 1, by omega, a, ?_, hu⟩
              unfold try_fit_addr
              rw [hs]
              dsimp only
              rw [if_pos hlt]
              exact ha
          · rw [if_neg hlt] at h
            simp only [Option.some.injEq, Prod.mk.injEq] at h
            omega
    · rintro ⟨j, hj, a, ha, hu⟩
      cases j with
      | zero =>
        simp only [try_fit_addr, Option.some.injEq] at ha
        subst ha
        exact ⟨[], by unfold walk; rw [hu]⟩
      | succ j =>
        unfold try_fit_addr at ha
        cases hs : try_fit_slot addr e with
        | none => rw [hs] at ha; simp at ha
        | some sl =>
          rw [hs] at ha
          cases sl with
          | unfittable => simp at ha
          | chosen r next =>
            dsimp only at ha
            by_cases hlt : next < e
            · rw [if_pos hlt] at ha
              obtain ⟨rs1, hw⟩ := (ih (i + 1) next).2 ⟨j, by omega, a, ha, hu⟩
              refine ⟨r :: rs1, ?_⟩
              unfold walk
              rw [hs]
              dsimp only
              rw [if_pos hlt, hw]
              rfl
            · rw [if_neg hlt] at ha
              simp at ha

/-- What `try_fit` leaves in the array, in terms of the loop without the array. -/
theorem try_fit_slots {mpu mpu1 : mpu_t} {mem : mem_blk_t} {ret : Int}
    (hlen : mpu.regions.length = MPU_REGIONS) (h : try_fit mpu mem = some (ret, mpu1)) :
    ∃ rs, walk (add64 mem.addr mem.size) MPU_REGIONS 0 mem.addr = some (ret, rs) ∧
      (1 ≤ ret → rs.length = ret.toNat) ∧ (ret = 0 → rs.length = MPU_REGIONS) ∧
      mpu1.regions.take rs.length = rs ∧
      ∀ j r, j < rs.length → mpu1.regions[j]? = some r → r ∈ rs := by
  unfold try_fit at h
  rw [try_fit_loop_eq_walk] at h
  cases hw : walk (add64 mem.addr mem.size) MPU_REGIONS 0 mem.addr with
  | none => rw [hw] at h; simp at h
  | some p =>
    obtain ⟨ret1, rs⟩ := p
    rw [hw] at h
    simp only [Option.map_some', Option.some.injEq, Prod.mk.injEq] at h
    obtain ⟨rfl, rfl⟩ := h
    obtain ⟨hl, hr⟩ := walk_ret _ _ _ _ _ _ hw
    have htake := overwrite_take rs mpu.regions (by omega)
    refine ⟨rs, rfl, ?_, ?_, htake, ?_⟩
    · intro h1
      rcases hr with hr | ⟨hr, -⟩ | ⟨-, hr⟩
      · omega
      · omega
      · rw [hr]; simp
    · intro h0
      rcases hr with hr | ⟨-, hr⟩ | ⟨h1, hr⟩
      · omega
      · exact hr
      · rw [hr] at h0; push_cast at h0; omega
    · intro j r hj hjr
      dsimp only at hjr
      rw [overwrite_getElem? rs mpu.regions 0 j (by omega), if_pos (by omega)] at hjr
      simp only [Nat.sub_zero] at hjr
      exact List.getElem?_mem hjr

/-- In a strictly descending list the first match of a search is the largest match. -/
theorem find?_largest (p : Nat → Bool) :
    ∀ (l : List Nat) (a : Nat), l.Pairwise (fun x y => x > y) → l.find? p = some a →
      ∀ b ∈ l, p b = true → b ≤ a := by
  intro l
  induction l with
  | nil => intro a _ h; simp at h
  | cons x rest ih =>
    intro a hp h b hb hpb
    rw [List.pairwise_cons] at hp
    by_cases hx : p x = true
    · rw [List.find?_cons_of_pos _ hx] at h
      simp only [Option.some.injEq] at h
      subst h
      rcases List.mem_cons.1 hb with rfl | hb
      · exact le_refl _
      · exact Nat.le_of_lt (hp.1 b hb)
    · rw [List.find?_cons_of_neg _ hx] at h
      rcases List.mem_cons.1 hb with rfl | hb
      · exact absurd hpb hx
      · exact ih a hp.2 h b hb hpb

theorem alignment_descending : alignment.Pairwise (fun x y => x > y) := by
  decide

/-! ## The planner: coverage, legality, return value, masks -/

theorem try_fit_slot_unfittable_iff (a e : Nat) :
    try_fit_slot a e = some slot_t.unfittable ↔
      (∃ r, srd_fit a e = some (false, r)) ∧ (std_fit a e).1 = false := by
  unfold try_fit_slot
  cases hs : srd_fit a e with
  | none => simp
  | some p =>
    obtain ⟨ok, srd⟩ := p
    cases ok with
    | true =>
      dsimp only
      simp only [Bool.true_eq_false, false_and, if_false]
      constructor
      · intro h
        split_ifs at h <;> simp at h
      · rintro ⟨⟨r, hr⟩, -⟩
        simp at hr
    | false =>
      dsimp only
      cases hstd : (std_fit a e).1 with
      | true =>
        simp only [Bool.true_eq_false, and_false, if_false, if_true]
        constructor
        · intro h
          split_ifs at h <;> simp at h
        · rintro ⟨-, h⟩
      | false =>
        simp

/-- C1 (coverage): when `try_fit` returns a count `n ≥ 1` for a block whose
`base + size` does not overflow, slots `0 .. n-1` of the array hold `n` regions whose
effective ranges tile the block: the first starts at `base`, each next one starts where
the previous one ended, and the last ends at `base + size`. -/
theorem try_fit_coverage (mpu : mpu_t) (mem : mem_blk_t) (ret : Int) (mpu1 : mpu_t)
    (hlen : mpu.regions.length = MPU_REGIONS) (hnov : mem.addr + mem.size < WORD)
    (h : try_fit mpu mem = some (ret, mpu1)) (hret : 1 ≤ ret) :
    (mpu1.regions.take ret.toNat).length = ret.toNat ∧
      covers mem.addr (mpu1.regions.take ret.toNat) (mem.addr + mem.size) := by
  obtain ⟨rs, hw, h1, -, htake, -⟩ := try_fit_slots hlen h
  have he : add64 mem.addr mem.size = mem.addr + mem.size := add64_of_lt hnov
  rw [he] at hw
  rw [← h1 hret, htake]
  exact ⟨rfl, walk_covers _ hnov _ _ _ _ _ (by decide) (by omega) hw hret⟩

theorem try_fit_slot_legal {addr e next : Nat} {r : region_t} (he : e ≤ WORD - 2 ^ 32)
    (hae : addr ≤ e) (h : try_fit_slot addr e = some (slot_t.chosen r next)) :
    region_legal r := by
  have hW : WORD = 2 ^ 64 := rfl
  rcases try_fit_slot_chosen (by omega) h with h1 | h1 | h1
  · exact h1.1
  · omega
  · exact h1.2.2.1

/-- C2 as amended (legality): for a block with `base + size ≤ 2^64 - 2^32`, every region
`try_fit` copies into a slot (the region chosen at every slot the loop reaches) has a
size that is a table entry and a base that is a multiple of the size; so do the first
`ret` slots of the array when `try_fit` returns `ret ≥ 1`, and all eight when it returns
0. -/
theorem try_fit_legal (mpu : mpu_t) (mem : mem_blk_t)
    (hlen : mpu.regions.length = MPU_REGIONS) (hm : mem.addr + mem.size ≤ WORD - 2 ^ 32) :
    (∀ i addr r next,
        try_fit_addr (add64 mem.addr mem.size) i mem.addr = some addr →
        try_fit_slot addr (add64 mem.addr mem.size) = some (slot_t.chosen r next) →
        region_legal r) ∧
    (∀ ret mpu1, try_fit mpu mem = some (ret, mpu1) →
      ∀ (j : Nat) (r : region_t), ((j : Int) < ret ∨ (ret = 0 ∧ j < MPU_REGIONS)) → mpu1.regions[j]? = some r →
        region_legal r) := by
  have hW : WORD = 2 ^ 64 := rfl
  have he : add64 mem.addr mem.size = mem.addr + mem.size := add64_of_lt (by omega)
  rw [he]
  constructor
  · intro i addr r next hreach hslot
    have hinv := try_fit_addr_inv (mem.addr + mem.size) (fun a => a ≤ mem.addr + mem.size)
      (fun _ _ _ _ _ hlt => Nat.le_of_lt hlt) i mem.addr addr (by omega) hreach
    exact try_fit_slot_legal hm hinv hslot
  · intro ret mpu1 h j r hj hjr
    obtain ⟨rs, hw, h1, h0, -, hmem⟩ := try_fit_slots hlen h
    rw [he] at hw
    have hall := walk_all (mem.addr + mem.size) region_legal (fun a => a ≤ mem.addr + mem.size)
      (fun addr r next hinv hslot => ⟨try_fit_slot_legal hm hinv hslot, fun hlt => Nat.le_of_lt hlt⟩)
      _ _ _ _ _ (by simp) hw
    refine hall r (hmem j r ?_ hjr)
    rcases hj with hj | ⟨hj, hj8⟩
    · have := h1 (by omega)
      omega
    · rw [h0 hj]; exact hj8

/-- C5 (budget bound and failure condition): a value returned by `try_fit` is -1 or lies
between 0 and 8; and `try_fit` returns -1 exactly when, at some slot the loop reaches,
`srd_fit` and `std_fit` both report that nothing fits. -/
theorem try_fit_return (mpu : mpu_t) (mem : mem_blk_t) :
    (∀ ret mpu1, try_fit mpu mem = some (ret, mpu1) → ret = -1 ∨ (0 ≤ ret ∧ ret ≤ 8)) ∧
    ((∃ mpu1, try_fit mpu mem = some (-1, mpu1)) ↔
      ∃ i, i < MPU_REGIONS ∧ ∃ addr,
        try_fit_addr (add64 mem.addr mem.size) i mem.addr = some addr ∧
        (∃ r, srd_fit addr (add64 mem.addr mem.size) = some (false, r)) ∧
        (std_fit addr (add64 mem.addr mem.size)).1 = false) := by
  constructor
  · intro ret mpu1 h
    unfold try_fit at h
    rw [try_fit_loop_eq_walk] at h
    cases hw : walk (add64 mem.addr mem.size) MPU_REGIONS 0 mem.addr with
    | none => rw [hw] at h; simp at h
    | some p =>
      obtain ⟨ret1, rs⟩ := p
      rw [hw] at h
      simp only [Option.map_some', Option.some.injEq, Prod.mk.injEq] at h
      obtain ⟨rfl, -⟩ := h
      obtain ⟨hl, hr⟩ := walk_ret _ _ _ _ _ _ hw
      have h8 : MPU_REGIONS = 8 := rfl
      rcases hr with hr | ⟨hr, -⟩ | ⟨-, hr⟩
      · exact Or.inl hr
      · right; omega
      · right; omega
  · have key := walk_unfittable_iff (add64 mem.addr mem.size) MPU_REGIONS 0 mem.addr
    simp only [try_fit_slot_unfittable_iff] at key
    rw [← key]
    unfold try_fit
    rw [try_fit_loop_eq_walk]
    constructor
    · rintro ⟨mpu1, h⟩
      cases hw : walk (add64 mem.addr mem.size) MPU_REGIONS 0 mem.addr with
      | none => rw [hw] at h; simp at h
      | some p =>
        obtain ⟨ret1, rs⟩ := p
        rw [hw] at h
        simp only [Option.map_some', Option.some.injEq, Prod.mk.injEq] at h
        obtain ⟨rfl, -⟩ := h
        exact ⟨rs, rfl⟩
    · rintro ⟨rs, hw⟩
      rw [hw]
      exact ⟨_, rfl⟩

theorem try_fit_slot_mask {addr e next : Nat} {r : region_t} (haw : addr < WORD)
    (h : try_fit_slot addr e = some (slot_t.chosen r next)) :
    r.srd ≠ 0 → ∃ run, 1 ≤ run ∧ run < 4 ∧ r.srd = 2 ^ run - 1 ∧ r.srd ≠ 0xff := by
  intro hne
  have h01 : r.srd ≤ 1 := by
    rcases try_fit_slot_chosen haw h with h1 | h1 | h1
    · exact h1.2.1
    · rw [h1.2.2]; decide
    · rw [h1.2.2.2.1]; decide
  have h1 : r.srd = 1 := by omega
  exact ⟨1, by decide, by decide, by rw [h1]; norm_num, by omega⟩

theorem try_fit_slot_next_lt {addr e next : Nat} {r : region_t}
    (h : try_fit_slot addr e = some (slot_t.chosen r next)) : next < WORD := by
  unfold try_fit_slot at h
  cases hs : srd_fit addr e with
  | none => rw [hs] at h; simp at h
  | some p =>
    obtain ⟨ok, srd⟩ := p
    rw [hs] at h
    dsimp only at h
    split_ifs at h <;>
      simp only [Option.some.injEq, slot_t.chosen.injEq] at h <;>
      obtain ⟨-, rfl⟩ := h <;> exact Nat.mod_lt _ (by decide)

/-- C10 (mask validity): every region `try_fit` copies into a slot (the region chosen at
every slot the loop reaches; the first `ret` slots of the array when `try_fit` returns
`ret ≥ 1`, all eight when it returns 0) has, when its mask is non-zero, a mask `2^run - 1`
with `1 ≤ run < 4`, which is never the sentinel mask `0xFF`. -/
theorem try_fit_mask (mpu : mpu_t) (mem : mem_blk_t)
    (hlen : mpu.regions.length = MPU_REGIONS) (hm : mem.addr < WORD) :
    (∀ i addr r next,
        try_fit_addr (add64 mem.addr mem.size) i mem.addr = some addr →
        try_fit_slot addr (add64 mem.addr mem.size) = some (slot_t.chosen r next) →
        r.srd ≠ 0 → ∃ run, 1 ≤ run ∧ run < 4 ∧ r.srd = 2 ^ run - 1 ∧ r.srd ≠ 0xff) ∧
    (∀ ret mpu1, try_fit mpu mem = some (ret, mpu1) →
      ∀ (j : Nat) (r : region_t), ((j : Int) < ret ∨ (ret = 0 ∧ j < MPU_REGIONS)) → mpu1.regions[j]? = some r →
        r.srd ≠ 0 → ∃ run, 1 ≤ run ∧ run < 4 ∧ r.srd = 2 ^ run - 1 ∧ r.srd ≠ 0xff) := by
  constructor
  · intro i addr r next hreach hslot
    have hinv := try_fit_addr_inv (add64 mem.addr mem.size) (fun a => a < WORD)
      (fun _ _ _ _ hs _ => try_fit_slot_next_lt hs) i mem.addr addr hm hreach
    exact try_fit_slot_mask hinv hslot
  · intro ret mpu1 h j r hj hjr
    obtain ⟨rs, hw, h1, h0, -, hmem⟩ := try_fit_slots hlen h
    have hall := walk_all (add64 mem.addr mem.size)
      (fun r => r.srd ≠ 0 → ∃ run, 1 ≤ run ∧ run < 4 ∧ r.srd = 2 ^ run - 1 ∧ r.srd ≠ 0xff)
      (fun a => a < WORD)
      (fun addr r next hinv hslot =>
        ⟨try_fit_slot_mask hinv hslot, fun _ => try_fit_slot_next_lt hslot⟩)
      _ _ _ _ _ hm hw
    refine hall r (hmem j r ?_ hjr)
    rcases hj with hj | ⟨hj, hj8⟩
    · have := h1 (by omega)
      omega
    · rw [h0 hj]; exact hj8

/-- C1 at the block `window_blk`: one region with one disabled subregion covers it. -/
theorem try_fit_coverage_witness :
    mpu_zero.regions.length = MPU_REGIONS ∧ window_blk.addr + window_blk.size < WORD ∧
    try_fit mpu_zero window_blk = some (1, window_mpu) ∧ (1 : Int) ≤ 1 ∧
    ((window_mpu.regions.take (1 : Int).toNat).length = (1 : Int).toNat ∧
      covers window_blk.addr (window_mpu.regions.take (1 : Int).toNat)
        (window_blk.addr + window_blk.size)) :=
  ⟨rfl, by decide, rfl, by decide,
    try_fit_coverage mpu_zero window_blk 1 window_mpu rfl (by decide) rfl (by decide)⟩

/-- C2 fails for the block `top_blk`, whose `base + size` does not overflow: in slot 0
the accepted subregion candidate ends at `2^64`, its end wraps to 0, and the region copied
into the slot is the untouched `std` candidate `{0, 0, 0}`, whose size 0 is not a table
entry. -/
theorem try_fit_legal_counterexample :
    top_blk.addr + top_blk.size < WORD ∧
    try_fit_addr (add64 top_blk.addr top_blk.size) 0 top_blk.addr = some top_blk.addr ∧
    try_fit_slot top_blk.addr (add64 top_blk.addr top_blk.size) =
      some (slot_t.chosen zero_region 0) ∧
    (∃ ret mpu1, try_fit mpu_sentinel top_blk = some (ret, mpu1) ∧
      mpu_sentinel.regions[0]? = some sentinel ∧ mpu1.regions[0]? = some zero_region) ∧
    ¬ region_legal zero_region := by
  refine ⟨by decide, rfl, rfl, ⟨0, _, rfl, rfl, rfl⟩, ?_⟩
  intro h
  exact absurd h.1 (by decide)

/-- C2 as amended at the block `window_blk`: the region in slot 0 is legal. -/
theorem try_fit_legal_witness :
    mpu_zero.regions.length = MPU_REGIONS ∧ window_blk.addr + window_blk.size ≤ WORD - 2 ^ 32 ∧
    region_legal { base_addr := 0x20000000, size := 256, srd := 1 } :=
  ⟨rfl, by decide,
    (try_fit_legal mpu_zero window_blk rfl (by decide)).2 1 window_mpu rfl 0 _
      (Or.inl (by decide)) rfl⟩

/-- C3, what the code does on the sample block `rom`: it returns 2, with two 512 KiB
regions, not the single 1 MiB region. -/
theorem try_fit_rom : try_fit mpu_zero rom = some (2, rom_mpu) := by
  rfl

/-- C4 (scenario 2): on the sample block `sram`, `try_fit` returns 2 and the plan is
`{0x20000000, 256 KiB, 0}` followed by `{0x20040000, 128 KiB, 0}`. -/
theorem try_fit_sram : try_fit mpu_zero sram = some (2, sram_mpu) := by
  rfl

/-- C10 at the block `window_blk`: the mask in slot 0 is `2^1 - 1`. -/
theorem try_fit_mask_witness :
    mpu_zero.regions.length = MPU_REGIONS ∧ window_blk.addr < WORD ∧
    ((1 : Nat) ≠ 0 → ∃ run, 1 ≤ run ∧ run < 4 ∧ (1 : Nat) = 2 ^ run - 1 ∧ (1 : Nat) ≠ 0xff) :=
  ⟨rfl, by decide,
    (try_fit_mask mpu_zero window_blk rfl (by decide)).2 1 window_mpu rfl 0
      { base_addr := 0x20000000, size := 256, srd := 1 } (Or.inl (by decide)) rfl⟩

/-! ## The fitters -/

/-- C6 (standard fitter, general case): for `addr > 0` with `addr + 4 GiB` not
overflowing, `std_fit` succeeds exactly when some table entry `A ≤ addr` divides `addr`
with `addr + A ≤ limit`; on success the region is `{addr, A, 0}` for the largest such `A`;
on failure it is the sentinel. -/
theorem std_fit_general (addr limit : Nat) (h0 : 0 < addr) (hov : addr + 2 ^ 32 < WORD) :
    ((std_fit addr limit).1 = true ↔
      ∃ A ∈ alignment, A ≤ addr ∧ addr % A = 0 ∧ addr + A ≤ limit) ∧
    ((std_fit addr limit).1 = true →
      ∃ A ∈ alignment, (A ≤ addr ∧ addr % A = 0 ∧ addr + A ≤ limit) ∧
        (∀ B ∈ alignment, B ≤ addr → addr % B = 0 → addr + B ≤ limit → B ≤ A) ∧
        (std_fit addr limit).2 = { base_addr := addr, size := A, srd := 0 }) ∧
    ((std_fit addr limit).1 = false → (std_fit addr limit).2 = sentinel) := by
  have hadd : ∀ a ∈ alignment, add64 addr a = addr + a := fun a ha =>
    add64_of_lt (by have := (alignment_le ha).2; omega)
  unfold std_fit
  rw [std_fit_loop_pos h0]
  cases hf : alignment.find?
      (fun a => decide (a ≤ addr ∧ addr % a = 0 ∧ add64 addr a ≤ limit)) with
  | none =>
    have hnone := List.find?_eq_none.1 hf
    refine ⟨⟨fun h => by simp at h, ?_⟩, fun h => by simp at h, fun _ => rfl⟩
    rintro ⟨A, hA, h1, h2, h3⟩
    have := hnone A hA
    rw [hadd A hA] at this
    simp only [decide_eq_true_eq] at this
    exact absurd ⟨h1, h2, h3⟩ this
  | some a =>
    have hmem : a ∈ alignment := List.mem_of_find?_eq_some hf
    have hp : a ≤ addr ∧ addr % a = 0 ∧ add64 addr a ≤ limit := by
      simpa using List.find?_some hf
    rw [hadd a hmem] at hp
    have hbig : ∀ B ∈ alignment, B ≤ addr → addr % B = 0 → addr + B ≤ limit → B ≤ a := by
      intro B hB h1 h2 h3
      refine find?_largest _ alignment a alignment_descending hf B hB ?_
      rw [decide_eq_true_eq, hadd B hB]
      exact ⟨h1, h2, h3⟩
    exact ⟨⟨fun _ => ⟨a, hmem, hp⟩, fun _ => rfl⟩, fun _ => ⟨a, hmem, hp, hbig, rfl⟩,
      fun h => by simp at h⟩

/-- C6 at `addr = 0x20040000`, `limit = 0x20060000`: the region is 128 KiB. -/
theorem std_fit_general_witness :
    0 < 0x20040000 ∧ 0x20040000 + 2 ^ 32 < WORD ∧
    (std_fit 0x20040000 0x20060000).2 = { base_addr := 0x20040000, size := 128 * 1024, srd := 0 } := by
  refine ⟨by decide, by decide, ?_⟩
  obtain ⟨A, -, -, -, hA⟩ :=
    (std_fit_general 0x20040000 0x20060000 (by decide) (by decide)).2.1 rfl
  rfl

/-- C7, what the code does at address 0: with `limit = 1 MiB` the 1 MiB entry fits but
`std_fit` returns the 512 KiB region, and with `limit = 32` the 32-byte entry fits but
`std_fit` fails. -/
theorem std_fit_zero_not_largest :
    std_fit 0 (1024 * 1024) = (true, { base_addr := 0, size := 512 * 1024, srd := 0 }) ∧
    (1024 * 1024 ∈ alignment ∧ 0 % (1024 * 1024) = 0 ∧ 0 + 1024 * 1024 ≤ 1024 * 1024) ∧
    std_fit 0 32 = (false, sentinel) ∧ (32 ∈ alignment ∧ 0 % 32 = 0 ∧ 0 + 32 ≤ 32) := by
  refine ⟨rfl, ⟨by decide, by decide, by decide⟩, rfl, by decide, by decide, by decide⟩

theorem std_fit_zero_cases (limit : Nat) :
    (32 < limit ∧ ∃ A ∈ alignment, A < limit ∧ (∀ B ∈ alignment, B < limit → B ≤ A) ∧
      std_fit 0 limit = (true, { base_addr := 0, size := A, srd := 0 })) ∨
    (¬ 32 < limit ∧ std_fit 0 limit = (false, sentinel)) := by
  have h32 : (32 : Nat) ∈ alignment := by decide
  unfold std_fit
  rw [std_fit_loop_zero]
  cases hf : alignment.find? (fun a => decide (a < limit)) with
  | none =>
    have hnone := List.find?_eq_none.1 hf
    have hn32 : ¬ 32 < limit := by simpa using hnone 32 h32
    exact Or.inr ⟨hn32, rfl⟩
  | some a =>
    have hmem : a ∈ alignment := List.mem_of_find?_eq_some hf
    have hlt : a < limit := by simpa using List.find?_some hf
    have hge := (alignment_le hmem).1
    have hW : WORD = 2 ^ 64 := rfl
    have hsz : add64 0 (align_up (alignment.getD SIZE_32B 0) a) = a := by
      rw [align_up_32 a hmem]
      have := @add64_of_lt 0 a (by have := (alignment_le hmem).2; omega)
      omega
    have hbig : ∀ B ∈ alignment, B < limit → B ≤ a := fun B hB hBl =>
      find?_largest _ alignment a alignment_descending hf B hB (by simpa using hBl)
    dsimp only
    rw [hsz]
    exact Or.inl ⟨by omega, a, hmem, hlt, hbig, rfl⟩

/-- C8 (address 0, both fitters): `srd_fit 0 limit` and `std_fit 0 limit` return the same
flag and region; they succeed exactly when `limit > 32`, with the region `{0, A, 0}` for
the largest table entry `A < limit`; otherwise they return the sentinel; and
`align_up 32 A = A` for every table entry. -/
theorem fit_zero (limit : Nat) :
    srd_fit 0 limit = some (std_fit 0 limit) ∧
    ((std_fit 0 limit).1 = true ↔ 32 < limit) ∧
    (32 < limit → ∃ A ∈ alignment, A < limit ∧ (∀ B ∈ alignment, B < limit → B ≤ A) ∧
      std_fit 0 limit = (true, { base_addr := 0, size := A, srd := 0 })) ∧
    (¬ 32 < limit → std_fit 0 limit = (false, sentinel)) ∧
    (∀ A ∈ alignment, align_up 32 A = A) := by
  refine ⟨srd_fit_loop_zero limit alignment, ?_, ?_, ?_, align_up_32⟩
  · rcases std_fit_zero_cases limit with ⟨h, A, -, -, -, hA⟩ | ⟨h, hs⟩
    · rw [hA]; exact ⟨fun _ => h, fun _ => rfl⟩
    · rw [hs]; exact ⟨fun h1 => by simp at h1, fun h1 => absurd h1 h⟩
  · intro h
    rcases std_fit_zero_cases limit with ⟨-, hA⟩ | ⟨hn, -⟩
    · exact hA
    · exact absurd h hn
  · intro h
    rcases std_fit_zero_cases limit with ⟨hp, -⟩ | ⟨-, hs⟩
    · exact absurd hp h
    · exact hs

theorem srd_fit_loop_skip {addr limit a : Nat} (rest : List Nat) (h0 : addr ≠ 0)
    (h : ¬ addr > a) : srd_fit_loop addr limit (a :: rest) = srd_fit_loop addr limit rest := by
  rw [srd_fit_loop, if_neg (by omega), if_neg (by omega)]

theorem srd_fit_loop_accept {addr limit a base size m : Nat} (rest : List Nat) (h0 : addr ≠ 0)
    (hgt : addr > a) (hb : mul64 (addr / a) a = base) (hs : mul64 (sub64 addr base) 8 = size)
    (hl : is_legal size = true) (hlim : add64 (align_down addr size) size ≤ limit)
    (hc : calc_srd addr base size = some m) :
    srd_fit_loop addr limit (a :: rest) =
      some (true, { base_addr := base, size := size, srd := m }) := by
  unfold srd_fit_loop
  rw [if_neg (by omega), if_pos ⟨h0, hgt⟩]
  dsimp only
  rw [hb, hs, if_pos ⟨hl, hlim⟩, hc]

/-- C9 (scenario 4): for `addr = 0x20000020` and every `limit ≥ 0x20000100`, `srd_fit`
succeeds with `{0x20000000, 256, 0b00000001}`; the subregion size `256 / 8` divides the
offset `0x20` and exactly one leading subregion is disabled. -/
theorem srd_fit_scenario (limit : Nat) (h : 0x20000100 ≤ limit) :
    srd_fit 0x20000020 limit =
        some (true, { base_addr := 0x20000000, size := 256, srd := 0b00000001 }) ∧
      (0x20000020 - 0x20000000) % (256 / 8) = 0 ∧
      (0x20000020 - 0x20000000) / (256 / 8) = 1 ∧ leading_set_bits 0b00000001 = 1 := by
  refine ⟨?_, by decide, by decide, by decide⟩
  unfold srd_fit alignment
  rw [srd_fit_loop_skip _ (by decide) (by decide), srd_fit_loop_skip _ (by decide) (by decide),
    srd_fit_loop_skip _ (by decide) (by decide)]
  refine srd_fit_loop_accept _ (by decide) (by decide) (by decide) (by decide) (by decide) ?_
    (by decide)
  have e : add64 (align_down 0x20000020 256) 256 = 0x20000100 := by decide
  rw [e]
  exact h

/-- C9 at `limit = 0x20060000`. -/
theorem srd_fit_scenario_witness :
    0x20000100 ≤ 0x20060000 ∧
    srd_fit 0x20000020 0x20060000 =
      some (true, { base_addr := 0x20000000, size := 256, srd := 0b00000001 }) :=
  ⟨by decide, (srd_fit_scenario 0x20060000 (by decide)).1⟩

/-! ## The mask calculator, the table and the sample blocks -/

theorem srd_mask_value : ∀ n, n < 4 →
    (List.range n).foldl (fun srd i => (srd ||| (1 <<< i)) % 256) 0 = 2 ^ n - 1 := by
  decide

/-- C11 (mask calculator): for `addr > 0`, `region_size ≥ 8` and `region_base ≤ addr`,
with `leading = (addr - region_base) / (region_size / 8)`: when `region_base` is a
multiple of `region_size` and `leading < 4`, `calc_srd` returns the mask `2^leading - 1`,
whose bits `0 .. leading-1` are set and all others clear, one of `0x00, 0x01, 0x03, 0x07`;
otherwise an assertion fails and no mask is returned. -/
theorem calc_srd_mask (addr region_base region_size : Nat) (ha : 0 < addr)
    (haw : addr < WORD) (hs : 8 ≤ region_size) (hb : region_base ≤ addr) :
    (region_base % region_size = 0 ∧ (addr - region_base) / (region_size / 8) < 4 →
      calc_srd addr region_base region_size =
          some (2 ^ ((addr - region_base) / (region_size / 8)) - 1) ∧
        (∀ i, (2 ^ ((addr - region_base) / (region_size / 8)) - 1).testBit i =
          decide (i < (addr - region_base) / (region_size / 8))) ∧
        2 ^ ((addr - region_base) / (region_size / 8)) - 1 ∈ [0x00, 0x01, 0x03, 0x07]) ∧
    (¬ (region_base % region_size = 0 ∧ (addr - region_base) / (region_size / 8) < 4) →
      calc_srd addr region_base region_size = none) := by
  have hsub : sub64 addr region_base = addr - region_base := sub64_of_le haw hb
  have h1 : ¬ ¬ (addr > 0) := by omega
  have h2 : ¬ region_size = 0 := by omega
  have h4 : ¬ region_size / 8 = 0 := by omega
  constructor
  · rintro ⟨hmod, hlead⟩
    refine ⟨?_, fun i => Nat.testBit_two_pow_sub_one _ i, ?_⟩
    · unfold calc_srd
      rw [if_neg h1, if_neg h2, if_neg (by omega)]
      dsimp only
      rw [if_neg h4, hsub, if_neg (by omega), srd_mask_value _ hlead]
    · generalize (addr - region_base) / (region_size / 8) = n at hlead
      interval_cases n <;> decide
  · intro hn
    unfold calc_srd
    rw [if_neg h1, if_neg h2]
    by_cases hmod : region_base % region_size = 0
    · rw [if_neg (by omega)]
      dsimp only
      rw [if_neg h4, hsub, if_pos (by intro h; exact hn ⟨hmod, by omega⟩)]
    · rw [if_pos (by omega)]

/-- C11 at `calc_srd(0x30, 0, 0x80)` (three leading subregions), at
`calc_srd(0x40, 0, 0x80)` (four) and at `calc_srd(0x60, 0x40, 0x100)` (unaligned base). -/
theorem calc_srd_mask_witness :
    0 < 0x30 ∧ 0x30 < WORD ∧ 8 ≤ 0x80 ∧ 0 ≤ 0x30 ∧
    calc_srd 0x30 0 0x80 = some 0x07 ∧ calc_srd 0x40 0 0x80 = none ∧
    calc_srd 0x60 0x40 0x100 = none := by
  have h1 := (calc_srd_mask 0x30 0 0x80 (by decide) (by decide) (by decide) (by decide)).1
    (by decide)
  have h2 := (calc_srd_mask 0x40 0 0x80 (by decide) (by decide) (by decide) (by decide)).2
    (by decide)
  have h3 := (calc_srd_mask 0x60 0x40 0x100 (by decide) (by decide) (by decide)
    (by decide)).2 (by decide)
  exact ⟨by decide, by decide, by decide, by decide, h1.1, h2, h3⟩

/-- C12, what the code does on the block `low_blk`: at slot 0 `srd_fit` accepts the
candidate `{0x40, 0x100}` and calls `calc_srd(0x60, 0x40, 0x100)`, whose assertion
`0 == region_base % region_size` fails, so `try_fit` returns nothing. -/
theorem try_fit_assert_fails :
    low_blk.addr + low_blk.size < WORD ∧
    try_fit_addr (add64 low_blk.addr low_blk.size) 0 low_blk.addr = some 0x60 ∧
    srd_fit 0x60 (add64 low_blk.addr low_blk.size) = none ∧
    calc_srd 0x60 0x40 0x100 = none ∧ 0x40 % 0x100 ≠ 0 ∧
    try_fit mpu_zero low_blk = none := by
  refine ⟨by decide, rfl, rfl, rfl, by decide, rfl⟩

/-- C15 (scenario 3): on the sample block `dram`, `try_fit` does not return -1: it
returns 6, and the six regions tile `[0x60000000, 0x600FA000)`. -/
theorem try_fit_dram :
    try_fit mpu_zero dram = some (6, dram_mpu) ∧ (6 : Int) ≠ -1 ∧
    (((1 : Int) ≤ 6 ∧ (6 : Int) ≤ 8 ∧
        (dram_mpu.regions.take (6 : Int).toNat).length = (6 : Int).toNat ∧
        covers 0x60000000 (dram_mpu.regions.take (6 : Int).toNat) 0x600FA000) ∨
      (6 : Int) = 0) := by
  refine ⟨rfl, by decide, Or.inl ⟨by decide, by decide, rfl, by decide⟩⟩

/-- C17 (table and legality): the table has 28 entries in strictly descending order, the
first `2^32` and the last 32, each entry half of the one before it; and `is_legal size`
holds exactly when `size = 2^j` with `5 ≤ j ≤ 32`. -/
theorem alignment_table :
    alignment.length = 28 ∧ alignment.Pairwise (fun x y => x > y) ∧
    alignment.head? = some (2 ^ 32) ∧ alignment.getLast? = some 32 ∧
    (∀ i, i + 1 < 28 → 2 * alignment.getD (i + 1) 0 = alignment.getD i 0) ∧
    (∀ size, is_legal size = true ↔ ∃ j, 5 ≤ j ∧ j ≤ 32 ∧ size = 2 ^ j) := by
  refine ⟨rfl, alignment_descending, rfl, rfl, ?_, ?_⟩
  · intro i hi
    have hi27 : i < 27 := by omega
    interval_cases i <;> rfl
  · intro size
    rw [is_legal_iff, mem_alignment_iff]

/-! ## Rounding, blocks at address 0 and the shape of a subregion fit -/

/-- C18 (rounding down): for a word `x` and a power of two `2^k` that fits a word,
`align_down x (2^k)` equals `x - x mod 2^k`; it is a multiple of `2^k`, at most `x`, less
than `2^k` below `x`, and no multiple of `2^k` that is at most `x` is larger. -/
theorem align_down_rounding (x k : Nat) (hx : x < WORD) (hk : k < 64) :
    align_down x (2 ^ k) = x - x % 2 ^ k ∧ 2 ^ k ∣ align_down x (2 ^ k) ∧
    align_down x (2 ^ k) ≤ x ∧ x - align_down x (2 ^ k) < 2 ^ k ∧
    ∀ m, 2 ^ k ∣ m → m ≤ x → m ≤ align_down x (2 ^ k) := by
  have hp : 0 < 2 ^ k := Nat.two_pow_pos k
  have hlt : 2 ^ k < WORD := Nat.pow_lt_pow_right (by decide) hk
  have hmask : x &&& sub64 (2 ^ k) 1 = x % 2 ^ k := by
    rw [sub64_of_le hlt (by omega)]
    exact Nat.and_pow_two_sub_one_eq_mod x k
  have hmod : x % 2 ^ k < 2 ^ k := Nat.mod_lt _ hp
  have hle : x % 2 ^ k ≤ x := Nat.mod_le _ _
  have hval : align_down x (2 ^ k) = x - x % 2 ^ k := by
    unfold align_down
    rw [hmask]
    exact sub64_of_le hx hle
  have hdm : 2 ^ k * (x / 2 ^ k) + x % 2 ^ k = x := Nat.div_add_mod x (2 ^ k)
  have hmul : x - x % 2 ^ k = 2 ^ k * (x / 2 ^ k) := by omega
  rw [hval]
  refine ⟨rfl, ?_, by omega, by omega, ?_⟩
  · rw [hmul]; exact Nat.dvd_mul_right _ _
  · rintro m ⟨c, rfl⟩ hm
    rw [hmul]
    apply Nat.mul_le_mul_left
    exact (Nat.le_div_iff_mul_le hp).2 (by rw [Nat.mul_comm]; exact hm)

/-- C18 at `x = 0x20000020`, `align = 256`. -/
theorem align_down_rounding_witness :
    0x20000020 < WORD ∧ 8 < 64 ∧ align_down 0x20000020 (2 ^ 8) = 0x20000000 :=
  ⟨by decide, by decide,
    (align_down_rounding 0x20000020 8 (by decide) (by decide)).1.trans (by decide)⟩

/-- C20 (smallest blocks at address 0): for a block with `base = 0` and `size ≤ 32`,
`try_fit` returns -1 and leaves the array as it was. -/
theorem try_fit_small_at_zero (mpu : mpu_t) (mem : mem_blk_t) (ha : mem.addr = 0)
    (hs : mem.size ≤ 32) : try_fit mpu mem = some (-1, mpu) := by
  have hW : WORD = 2 ^ 64 := rfl
  have he : add64 mem.addr mem.size = mem.size := by
    rw [ha]
    have := @add64_of_lt 0 mem.size (by omega)
    omega
  have hstd : std_fit 0 mem.size = (false, sentinel) := by
    rcases std_fit_zero_cases mem.size with ⟨h, -⟩ | ⟨-, h⟩
    · omega
    · exact h
  have hsrd : srd_fit 0 mem.size = some (false, sentinel) := by
    unfold srd_fit
    rw [srd_fit_loop_zero]
    exact congrArg some hstd
  have hslot : try_fit_slot 0 mem.size = some slot_t.unfittable :=
    (try_fit_slot_unfittable_iff 0 mem.size).2 ⟨⟨sentinel, hsrd⟩, by rw [hstd]⟩
  unfold try_fit
  rw [he, ha]
  show try_fit_loop mem.size (7 + 1) 0 0 mpu = some (-1, mpu)
  rw [try_fit_loop, hslot]

/-- C20 at the block of exactly 32 bytes at address 0. -/
theorem try_fit_small_at_zero_witness :
    (0 : Nat) = 0 ∧ 32 ≤ 32 ∧
    try_fit mpu_zero { name := "cell", addr := 0, size := 32 } = some (-1, mpu_zero) :=
  ⟨rfl, by decide,
    try_fit_small_at_zero mpu_zero { name := "cell", addr := 0, size := 32 } rfl (by decide)⟩

theorem lowest_bit_unique {addr k j : Nat} (hk : 2 ^ k ∣ addr) (hk1 : ¬ 2 ^ (k + 1) ∣ addr)
    (hj : 2 ^ j ∣ addr) (hj1 : ¬ 2 ^ (j + 1) ∣ addr) : k = j := by
  rcases Nat.lt_trichotomy k j with h | h | h
  · exact absurd (Nat.dvd_trans (Nat.pow_dvd_pow 2 (by omega : k + 1 ≤ j)) hj) hk1
  · exact h
  · exact absurd (Nat.dvd_trans (Nat.pow_dvd_pow 2 (by omega : j + 1 ≤ k)) hk) hj1

/-- The remainder kept by an accepted subregion candidate is the lowest set bit of the
address. -/
theorem srd_remainder_lowest_bit {addr s : Nat} (hs : 0 < s) (hsa : s < addr)
    (hmem : 8 * s ∈ alignment) (hbase : (addr - s) % (8 * s) = 0) :
    ∃ k, s = 2 ^ k ∧ 2 ^ k ∣ addr ∧ ¬ 2 ^ (k + 1) ∣ addr := by
  obtain ⟨j, hj5, -, hj⟩ := (mem_alignment_iff _).1 hmem
  have hs2 : s = 2 ^ (j - 3) := by
    have h8 : 2 ^ j = 2 ^ 3 * 2 ^ (j - 3) := by
      rw [← Nat.pow_add]; congr 1; omega
    have : 8 * s = 8 * 2 ^ (j - 3) := by rw [hj, h8]; norm_num
    omega
  obtain ⟨c, hc⟩ := Nat.dvd_of_mod_eq_zero hbase
  have haddr : addr = 2 * s * (4 * c) + s := by
    have : 8 * s * c = 2 * s * (4 * c) := by ring
    omega
  refine ⟨j - 3, hs2, ?_, ?_⟩
  · rw [← hs2]
    exact ⟨2 * (4 * c) + 1, by rw [haddr]; ring⟩
  · rw [Nat.pow_succ, ← hs2]
    intro hd
    have hm := Nat.mod_eq_zero_of_dvd hd
    rw [haddr, Nat.mul_comm s 2, Nat.mul_add_mod, Nat.mod_eq_of_lt (by omega)] at hm
    omega

/-- C19 as amended (shape of a subregion fit): when `srd_fit` succeeds at `addr > 0`, the
region is `{addr - L, 8 * L, 0x01}` for the lowest set bit `L = 2^k` of `addr`; exactly one
leading subregion is disabled, the effective range is `[addr, addr + 7 * L)`, with
`addr + 7 * L ≤ limit` when `addr + 4 GiB` does not overflow; and the region is the same
whichever table entries the loop runs over and whatever the limit. -/
theorem srd_fit_shape (addr limit : Nat) (r : region_t) (h0 : 0 < addr)
    (haw : addr < WORD) (h : srd_fit addr limit = some (true, r)) :
    ∃ k, 2 ^ k ∣ addr ∧ ¬ 2 ^ (k + 1) ∣ addr ∧
      r = { base_addr := addr - 2 ^ k, size := 8 * 2 ^ k, srd := 0x01 } ∧
      leading_set_bits r.srd = 1 ∧ eff_start r = addr ∧
      r.base_addr + r.size = addr + 7 * 2 ^ k ∧
      (addr + 2 ^ 32 < WORD → addr + 7 * 2 ^ k ≤ limit) ∧
      ∀ (l : List Nat) (limit1 : Nat) (r1 : region_t), (∀ a ∈ l, a ∈ alignment) →
        srd_fit_loop addr limit1 l = some (true, r1) → r1 = r := by
  have hW : WORD = 2 ^ 64 := rfl
  obtain ⟨s, hs0, hsa, rfl, hmem, hbase, hlim⟩ :=
    srd_fit_loop_true h0 haw alignment (fun a ha => ha) r h
  obtain ⟨k, rfl, hk, hk1⟩ := srd_remainder_lowest_bit hs0 hsa hmem hbase
  have hb := alignment_le hmem
  have hl1 : leading_set_bits 1 = 1 := by decide
  refine ⟨k, hk, hk1, rfl, hl1, ?_, ?_, ?_, ?_⟩
  · simp only [eff_start, hl1]
    rw [if_neg (by decide)]
    omega
  · show addr - 2 ^ k + 8 * 2 ^ k = addr + 7 * 2 ^ k
    omega
  · intro hov
    rw [add64_of_lt (by omega)] at hlim
    omega
  · intro l limit1 r1 hl h1
    obtain ⟨s1, hs10, hs1a, rfl, hmem1, hbase1, -⟩ :=
      srd_fit_loop_true h0 haw l hl r1 h1
    obtain ⟨k1, rfl, hk', hk1'⟩ := srd_remainder_lowest_bit hs10 hs1a hmem1 hbase1
    rw [lowest_bit_unique hk' hk1' hk hk1]

/-- C19 as amended at `addr = 0x20000020`, `limit = 0x20000100`. -/
theorem srd_fit_shape_witness :
    0 < 0x20000020 ∧ 0x20000020 < WORD ∧
    srd_fit 0x20000020 0x20000100 =
      some (true, { base_addr := 0x20000000, size := 256, srd := 1 }) ∧
    ∃ k, 2 ^ k ∣ 0x20000020 ∧ ¬ 2 ^ (k + 1) ∣ 0x20000020 ∧
      ({ base_addr := 0x20000000, size := 256, srd := 1 } : region_t) =
        { base_addr := 0x20000020 - 2 ^ k, size := 8 * 2 ^ k, srd := 0x01 } ∧
      0x20000020 + 7 * 2 ^ k ≤ 0x20000100 := by
  refine ⟨by decide, by decide, rfl, ?_⟩
  obtain ⟨k, h1, h2, h3, -, -, -, h4, -⟩ := srd_fit_shape 0x20000020 0x20000100
    { base_addr := 0x20000000, size := 256, srd := 1 } (by decide) (by decide) rfl
  exact ⟨k, h1, h2, h3, h4 (by decide)⟩

/-- C19 fails at `addr = 2^64 - 28`, `limit = 2^64 - 20`: `srd_fit` succeeds with the
region for `L = 4`, whose end `addr + 7 * L = 2^64` is above the limit (the check wraps
to `0 ≤ limit`). -/
theorem srd_fit_shape_counterexample :
    0 < 2 ^ 64 - 28 ∧ 2 ^ 64 - 28 < WORD ∧
    srd_fit (2 ^ 64 - 28) (2 ^ 64 - 20) =
      some (true, { base_addr := 2 ^ 64 - 28 - 4, size := 8 * 4, srd := 0x01 }) ∧
    4 ∣ 2 ^ 64 - 28 ∧ ¬ 2 * 4 ∣ 2 ^ 64 - 28 ∧ ¬ (2 ^ 64 - 28 + 7 * 4 ≤ 2 ^ 64 - 20) := by
  refine ⟨by decide, by decide, rfl, by decide, by decide, by decide⟩

/-! ## The planner against its specification -/

/-- Away from the top of the address space an iteration of `try_fit` chooses a legal
region that starts at the current address and ends within the block. -/
theorem try_fit_slot_normal {addr e next : Nat} {r : region_t} (hov : addr + 2 ^ 32 < WORD)
    (h : try_fit_slot addr e = some (slot_t.chosen r next)) :
    region_legal r ∧ r.srd ≤ 1 ∧ eff_start r = addr ∧ r.base_addr + r.size = next ∧
      addr < next ∧ next ≤ e := by
  rcases try_fit_slot_chosen (by omega) h with h1 | h1 | h1
  · exact ⟨h1.1, h1.2.1, h1.2.2.1, h1.2.2.2.1, h1.2.2.2.2.1, h1.2.2.2.2.2.1⟩
  · omega
  · omega

/-- The two outcomes of `std_fit` at a non-zero address. -/
theorem std_fit_cases {addr : Nat} (h0 : 0 < addr) (limit : Nat) :
    std_fit addr limit = (false, sentinel) ∨
    ∃ A ∈ alignment, A ≤ addr ∧ addr % A = 0 ∧ add64 addr A ≤ limit ∧
      std_fit addr limit = (true, { base_addr := addr, size := A, srd := 0 }) := by
  unfold std_fit
  rw [std_fit_loop_pos h0]
  cases hf : alignment.find?
      (fun a => decide (a ≤ addr ∧ addr % a = 0 ∧ add64 addr a ≤ limit)) with
  | none => exact Or.inl rfl
  | some a =>
    have hmem : a ∈ alignment := List.mem_of_find?_eq_some hf
    have hp : a ≤ addr ∧ addr % a = 0 ∧ add64 addr a ≤ limit := by
      simpa using List.find?_some hf
    exact Or.inr ⟨a, hmem, hp.1, hp.2.1, hp.2.2, rfl⟩

/-- Below the top 4 GiB the short-circuit of `try_fit` chooses what the specified slot
chooses. -/
theorem spec_try_fit_slot_eq {addr e : Nat} (hae : addr ≤ e) (he : e ≤ WORD - 2 ^ 32) :
    spec_try_fit_slot addr e = try_fit_slot addr e := by
  have hW : WORD = 2 ^ 64 := rfl
  unfold spec_try_fit_slot try_fit_slot
  cases hs : srd_fit addr e with
  | none => rfl
  | some p =>
    obtain ⟨ok, srd⟩ := p
    dsimp only
    cases ok with
    | false =>
      have hsen := srd_fit_loop_false alignment srd hs
      subst hsen
      have hz : add64 sentinel.base_addr sentinel.size = 0 := by decide
      rw [hz]
      cases hstd : (std_fit addr e).1 with
      | false => simp
      | true => simp
    | true =>
      have hz : add64 zero_region.base_addr zero_region.size = 0 := by decide
      simp only [Bool.true_eq_false, false_and, if_false]
      rw [hz]
      rcases Nat.eq_zero_or_pos addr with h0 | hpos
      · subst h0
        unfold srd_fit at hs
        rw [srd_fit_loop_zero] at hs
        simp only [Option.some.injEq] at hs
        have hstd : std_fit 0 e = (true, srd) := hs
        rcases std_fit_zero_cases e with ⟨-, A, hA, hlt, -, hval⟩ | ⟨-, hval⟩
        · rw [hstd] at hval
          simp only [Prod.mk.injEq, true_and] at hval
          subst hval
          have hb := alignment_le hA
          rw [hstd]
          dsimp only
          have hn : add64 0 A = A := by
            have := @add64_of_lt 0 A (by omega)
            omega
          rw [hn, if_neg (by omega), if_pos (by omega)]
        · rw [hstd] at hval
          simp at hval
      · obtain ⟨s, hs0, hsa, rfl, hmem, hbase, hlim⟩ :=
          srd_fit_loop_true hpos (by omega) alignment (fun a ha => ha) srd hs
        obtain ⟨k, rfl, hk, hk1⟩ := srd_remainder_lowest_bit hs0 hsa hmem hbase
        have hb := alignment_le hmem
        dsimp only
        have hn : add64 (addr - 2 ^ k) (8 * 2 ^ k) = addr + 7 * 2 ^ k := by
          rw [add64_of_lt (by omega)]
          omega
        have hz2 : add64 sentinel.base_addr sentinel.size = 0 := by decide
        rcases std_fit_cases hpos e with hval | ⟨A, hA, hAle, hAmod, -, hval⟩
        · rw [hval]
          dsimp only
          rw [hz2, hn, if_pos (by omega), if_pos (by omega)]
        · obtain ⟨j, -, -, rfl⟩ := (mem_alignment_iff A).1 hA
          have hjk : j ≤ k := by
            by_contra hc
            exact hk1 (Nat.dvd_trans (Nat.pow_dvd_pow 2 (by omega : k + 1 ≤ j))
              (Nat.dvd_of_mod_eq_zero hAmod))
          have hle : 2 ^ j ≤ 2 ^ k := Nat.pow_le_pow_right (by decide) hjk
          have hn2 : add64 addr (2 ^ j) = addr + 2 ^ j := add64_of_lt (by omega)
          rw [hval]
          dsimp only
          rw [hn2, hn, if_pos (by omega), if_pos (by omega)]

theorem spec_try_fit_loop_eq {e : Nat} (he : e ≤ WORD - 2 ^ 32) :
    ∀ (n i addr : Nat) (mpu : mpu_t), addr ≤ e →
      spec_try_fit_loop e n i addr mpu = try_fit_loop e n i addr mpu := by
  intro n
  induction n with
  | zero => intro i addr mpu _; rfl
  | succ n ih =>
    intro i addr mpu hae
    unfold spec_try_fit_loop try_fit_loop
    rw [spec_try_fit_slot_eq hae he]
    cases hs : try_fit_slot addr e with
    | none => rfl
    | some sl =>
      cases sl with
      | unfittable => rfl
      | chosen r next =>
        dsimp only
        by_cases hlt : next < e
        · rw [if_pos hlt, if_pos hlt]
          exact ih (i + 1) next _ (Nat.le_of_lt hlt)
        · rw [if_neg hlt, if_neg hlt]

/-- C13 as amended (selection rule): for a block with `base + size ≤ 2^64 - 2^32`, the
returned value and the array of `try_fit`, which calls `std_fit` only when `srd_fit`
failed, are those of the specified planner that computes both candidates at every slot
and records the subregion candidate exactly when its end is strictly greater. -/
theorem try_fit_refines_spec (mpu : mpu_t) (mem : mem_blk_t)
    (hm : mem.addr + mem.size ≤ WORD - 2 ^ 32) :
    try_fit mpu mem = spec_try_fit mpu mem := by
  have hW : WORD = 2 ^ 64 := rfl
  have he : add64 mem.addr mem.size = mem.addr + mem.size := add64_of_lt (by omega)
  unfold try_fit spec_try_fit
  rw [he]
  exact (spec_try_fit_loop_eq hm _ _ _ _ (by omega)).symm

/-- C13 as amended at the block `window_blk`. -/
theorem try_fit_refines_spec_witness :
    window_blk.addr + window_blk.size ≤ WORD - 2 ^ 32 ∧
    spec_try_fit mpu_zero window_blk = some (1, window_mpu) := by
  refine ⟨by decide, ?_⟩
  rw [← try_fit_refines_spec mpu_zero window_blk (by decide)]
  rfl

/-- C13 fails for the block `top_blk`: the end of the accepted subregion candidate wraps
to 0, `try_fit` records the untouched `std` value `{0, 0, 0}` while the specified planner
records the sentinel `{0, 0, 0xFF}` that `std_fit` returns. -/
theorem try_fit_refines_spec_counterexample :
    top_blk.addr + top_blk.size < WORD ∧
    try_fit_slot top_blk.addr (add64 top_blk.addr top_blk.size) =
      some (slot_t.chosen zero_region 0) ∧
    spec_try_fit_slot top_blk.addr (add64 top_blk.addr top_blk.size) =
      some (slot_t.chosen sentinel 0) ∧
    try_fit mpu_zero top_blk ≠ spec_try_fit mpu_zero top_blk := by
  refine ⟨by decide, rfl, rfl, by decide⟩

/-! ## Failure and budget exhaustion -/

/-- Every region the loop copies into a slot is the one chosen at the slot reached. -/
theorem walk_trace (e : Nat) :
    ∀ (n i addr : Nat) (ret : Int) (rs : List region_t),
      walk e n i addr = some (ret, rs) → ∀ (j : Nat) (r : region_t), rs[j]? = some r →
        ∃ a next, try_fit_addr e j addr = some a ∧
          try_fit_slot a e = some (slot_t.chosen r next) := by
  intro n
  induction n with
  | zero =>
    intro i addr ret rs h j r hj
    simp only [walk, Option.some.injEq, Prod.mk.injEq] at h
    obtain ⟨-, rfl⟩ := h
    simp at hj
  | succ n ih =>
    intro i addr ret rs h j r hj
    unfold walk at h
    cases hs : try_fit_slot addr e with
    | none => rw [hs] at h; simp at h
    | some sl =>
      rw [hs] at h
      cases sl with
      | unfittable =>
        simp only [Option.some.injEq, Prod.mk.injEq] at h
        obtain ⟨-, rfl⟩ := h
        simp at hj
      | chosen r0 next =>
        dsimp only at h
        by_cases hlt : next < e
        · rw [if_pos hlt] at h
          cases hw : walk e n (i + 1) next with
          | none => rw [hw] at h; simp at h
          | some p =>
            obtain ⟨ret1, rs1⟩ := p
            rw [hw] at h
            simp only [Option.map_some', Option.some.injEq, Prod.mk.injEq] at h
            obtain ⟨-, rfl⟩ := h
            cases j with
            | zero =>
              simp only [List.getElem?_cons_zero, Option.some.injEq] at hj
              subst hj
              exact ⟨addr, next, rfl, hs⟩
            | succ j =>
              rw [List.getElem?_cons_succ] at hj
              obtain ⟨a, nx, ha, hsl⟩ := ih (i + 1) next ret1 rs1 hw j r hj
              refine ⟨a, nx, ?_, hsl⟩
              unfold try_fit_addr
              rw [hs]
              dsimp only
              rw [if_pos hlt]
              exact ha
        · rw [if_neg hlt] at h
          simp only [Option.some.injEq, Prod.mk.injEq] at h
          obtain ⟨-, rfl⟩ := h
          cases j with
          | zero =>
            simp only [List.getElem?_cons_zero, Option.some.injEq] at hj
            subst hj
            exact ⟨addr, next, rfl, hs⟩
          | succ j => simp at hj

/-- When the loop returns -1 the slot after the regions copied is the one at which
nothing fits. -/
theorem walk_fail (e : Nat) :
    ∀ (n i addr : Nat) (rs : List region_t),
      walk e n i addr = some (-1, rs) →
        rs.length < n ∧ ∃ a, try_fit_addr e rs.length addr = some a ∧
          try_fit_slot a e = some slot_t.unfittable := by
  intro n
  induction n with
  | zero =>
    intro i addr rs h
    simp [walk] at h
  | succ n ih =>
    intro i addr rs h
    unfold walk at h
    cases hs : try_fit_slot addr e with
    | none => rw [hs] at h; simp at h
    | some sl =>
      rw [hs] at h
      cases sl with
      | unfittable =>
        simp only [Option.some.injEq, Prod.mk.injEq] at h
        obtain ⟨-, rfl⟩ := h
        exact ⟨by simp, addr, rfl, hs⟩
      | chosen r0 next =>
        dsimp only at h
        by_cases hlt : next < e
        · rw [if_pos hlt] at h
          cases hw : walk e n (i + 1) next with
          | none => rw [hw] at h; simp at h
          | some p =>
            obtain ⟨ret1, rs1⟩ := p
            rw [hw] at h
            simp only [Option.map_some', Option.some.injEq, Prod.mk.injEq] at h
            obtain ⟨rfl, rfl⟩ := h
            obtain ⟨hl, a, ha, hsl⟩ := ih (i + 1) next rs1 hw
            refine ⟨by simp; omega, a, ?_, hsl⟩
            simp only [List.length_cons]
            unfold try_fit_addr
            rw [hs]
            dsimp only
            rw [if_pos hlt]
            exact ha
        · rw [if_neg hlt] at h
          simp only [Option.some.injEq, Prod.mk.injEq] at h
          omega

/-- The loop returns 0 exactly when its last slot is reached and the region chosen there
still ends before the end of the block. -/
theorem walk_zero_iff (e : Nat) :
    ∀ (n i addr : Nat),
      (∃ rs, walk e (n + 1) i addr = some (0, rs)) ↔
        ∃ a r next, try_fit_addr e n addr = some a ∧
          try_fit_slot a e = some (slot_t.chosen r next) ∧ next < e := by
  intro n
  induction n with
  | zero =>
    intro i addr
    unfold walk
    simp only [try_fit_addr, Option.some.injEq]
    cases hs : try_fit_slot addr e with
    | none =>
      constructor
      · rintro ⟨rs, h⟩; simp at h
      · rintro ⟨a, r, next, rfl, h, -⟩; rw [hs] at h; simp at h
    | some sl =>
      cases sl with
      | unfittable =>
        constructor
        · rintro ⟨rs, h⟩; simp at h
        · rintro ⟨a, r, next, rfl, h, -⟩; rw [hs] at h; simp at h
      | chosen r0 next0 =>
        dsimp only
        by_cases hlt : next0 < e
        · rw [if_pos hlt]
          constructor
          · intro _; exact ⟨addr, r0, next0, rfl, hs, hlt⟩
          · intro _; exact ⟨[r0], rfl⟩
        · rw [if_neg hlt]
          constructor
          · rintro ⟨rs, h⟩
            simp only [Option.some.injEq, Prod.mk.injEq] at h
            omega
          · rintro ⟨a, r, next, rfl, h, hn⟩
            rw [hs] at h
            simp only [Option.some.injEq, slot_t.chosen.injEq] at h
            omega
  | succ n ih =>
    intro i addr
    rw [walk, try_fit_addr]
    cases hs : try_fit_slot addr e with
    | none =>
      constructor
      · rintro ⟨rs, h⟩; simp at h
      · rintro ⟨a, r, next, h, -⟩; simp at h
    | some sl =>
      cases sl with
      | unfittable =>
        constructor
        · rintro ⟨rs, h⟩; simp at h
        · rintro ⟨a, r, next, h, -⟩; simp at h
      | chosen r0 next0 =>
        dsimp only
        by_cases hlt : next0 < e
        · rw [if_pos hlt, if_pos hlt, ← ih (i + 1) next0]
          constructor
          · rintro ⟨rs, h⟩
            cases hw : walk e (n + 1) (i + 1) next0 with
            | none => rw [hw] at h; simp at h
            | some p =>
              obtain ⟨ret1, rs1⟩ := p
              rw [hw] at h
              simp only [Option.map_some', Option.some.injEq, Prod.mk.injEq] at h
              obtain ⟨rfl, -⟩ := h
              exact ⟨rs1, rfl⟩
          · rintro ⟨rs1, hw⟩
            rw [hw]
            exact ⟨r0 :: rs1, rfl⟩
        · rw [if_neg hlt, if_neg hlt]
          constructor
          · rintro ⟨rs, h⟩
            simp only [Option.some.injEq, Prod.mk.injEq] at h
            omega
          · rintro ⟨a, r, next, h, -⟩; simp at h

/-- When the loop returns 0 below the top 4 GiB, every region copied is legal and ends
before the end of the block. -/
theorem walk_zero_all (e : Nat) (he : e < WORD - 2 ^ 32) :
    ∀ (n i addr : Nat) (rs : List region_t), addr ≤ e →
      walk e n i addr = some (0, rs) →
      ∀ r ∈ rs, region_legal r ∧ r.base_addr + r.size < e := by
  have hW : WORD = 2 ^ 64 := rfl
  intro n
  induction n with
  | zero =>
    intro i addr rs _ h
    simp only [walk, Option.some.injEq, Prod.mk.injEq] at h
    obtain ⟨-, rfl⟩ := h
    simp
  | succ n ih =>
    intro i addr rs hae h
    unfold walk at h
    cases hs : try_fit_slot addr e with
    | none => rw [hs] at h; simp at h
    | some sl =>
      rw [hs] at h
      cases sl with
      | unfittable => simp at h
      | chosen r0 next =>
        dsimp only at h
        obtain ⟨hleg, -, -, hnx, -, -⟩ := try_fit_slot_normal (by omega) hs
        by_cases hlt : next < e
        · rw [if_pos hlt] at h
          cases hw : walk e n (i + 1) next with
          | none => rw [hw] at h; simp at h
          | some p =>
            obtain ⟨ret1, rs1⟩ := p
            rw [hw] at h
            simp only [Option.map_some', Option.some.injEq, Prod.mk.injEq] at h
            obtain ⟨rfl, rfl⟩ := h
            intro r hr
            rcases List.mem_cons.1 hr with rfl | hr
            · exact ⟨hleg, by omega⟩
            · exact ih (i + 1) next rs1 (by omega) hw r hr
        · rw [if_neg hlt] at h
          simp only [Option.some.injEq, Prod.mk.injEq] at h
          omega

/-- Below the top 4 GiB nothing fits in subregion mode when the limit does not exceed the
address: no candidate is accepted, so `calc_srd` is not called. -/
theorem srd_fit_loop_limit_le {addr limit : Nat} (h0 : 0 < addr) (hov : addr + 2 ^ 32 < WORD)
    (hl : limit ≤ addr) :
    ∀ l : List Nat, srd_fit_loop addr limit l = some (false, sentinel) := by
  have hW : WORD = 2 ^ 64 := rfl
  intro l
  induction l with
  | nil => rfl
  | cons a rest ih =>
    rw [srd_fit_loop, if_neg (by omega)]
    dsimp only
    have hno : ∀ size, ¬ (is_legal size = true ∧ add64 (align_down addr size) size ≤ limit) := by
      rintro size ⟨hleg, hlim⟩
      obtain ⟨k, -, hk32, rfl⟩ := (mem_alignment_iff _).1 ((is_legal_iff _).1 hleg)
      have hb : 2 ^ k ≤ 2 ^ 32 := Nat.pow_le_pow_right (by decide) hk32
      have hmod : addr % 2 ^ k < 2 ^ k := Nat.mod_lt _ (Nat.two_pow_pos k)
      have hmle : addr % 2 ^ k ≤ addr := Nat.mod_le _ _
      rw [align_down_pow addr k (by omega) hk32, add64_of_lt (by omega)] at hlim
      omega
    by_cases h1 : addr ≠ 0 ∧ addr > a
    · rw [if_pos h1, if_neg (hno _)]
      exact ih
    · rw [if_neg h1]
      exact ih

/-- An empty block below the top 4 GiB is unfittable at its first slot. -/
theorem try_fit_slot_empty {addr : Nat} (hov : addr + 2 ^ 32 < WORD) :
    try_fit_slot addr addr = some slot_t.unfittable := by
  have hW : WORD = 2 ^ 64 := rfl
  rw [try_fit_slot_unfittable_iff]
  rcases Nat.eq_zero_or_pos addr with h0 | hpos
  · subst h0
    have hstd : std_fit 0 0 = (false, sentinel) := by
      rcases std_fit_zero_cases 0 with ⟨h, -⟩ | ⟨-, h⟩
      · omega
      · exact h
    refine ⟨⟨sentinel, ?_⟩, by rw [hstd]⟩
    unfold srd_fit
    rw [srd_fit_loop_zero]
    exact congrArg some hstd
  · refine ⟨⟨sentinel, srd_fit_loop_limit_le hpos hov (le_refl _) alignment⟩, ?_⟩
    rcases std_fit_cases hpos addr with h | ⟨A, hA, -, -, hlim, -⟩
    · rw [h]
    · have hb := alignment_le hA
      rw [add64_of_lt (by omega)] at hlim
      omega

/-- C14 as amended (meaning of 0): for a block with `base + size < 2^64 - 2^32`,
`try_fit` returns 0 exactly when the eighth slot is reached and the region chosen there
ends strictly below `base + size`; when it returns 0 all eight slots hold legal regions
that end strictly below `base + size`; and a block of size 0 yields -1. -/
theorem try_fit_exhausted (mpu : mpu_t) (mem : mem_blk_t)
    (hlen : mpu.regions.length = MPU_REGIONS) (hm : mem.addr + mem.size < WORD - 2 ^ 32) :
    ((∃ mpu1, try_fit mpu mem = some (0, mpu1)) ↔
      ∃ addr r next,
        try_fit_addr (mem.addr + mem.size) (MPU_REGIONS - 1) mem.addr = some addr ∧
        try_fit_slot addr (mem.addr + mem.size) = some (slot_t.chosen r next) ∧
        r.base_addr + r.size < mem.addr + mem.size) ∧
    (∀ mpu1, try_fit mpu mem = some (0, mpu1) →
      ∀ j, j < MPU_REGIONS → ∃ r, mpu1.regions[j]? = some r ∧ region_legal r ∧
        r.base_addr + r.size < mem.addr + mem.size) ∧
    (mem.size = 0 → try_fit mpu mem = some (-1, mpu)) := by
  have hW : WORD = 2 ^ 64 := rfl
  have he : add64 mem.addr mem.size = mem.addr + mem.size := add64_of_lt (by omega)
  refine ⟨?_, ?_, ?_⟩
  · have key := walk_zero_iff (mem.addr + mem.size) (MPU_REGIONS - 1) 0 mem.addr
    have hstep : (∃ mpu1, try_fit mpu mem = some (0, mpu1)) ↔
        ∃ rs, walk (mem.addr + mem.size) (MPU_REGIONS - 1 + 1) 0 mem.addr = some (0, rs) := by
      unfold try_fit
      rw [try_fit_loop_eq_walk, he]
      show (∃ mpu1, Option.map _ (walk (mem.addr + mem.size) (MPU_REGIONS - 1 + 1) 0 mem.addr)
        = some (0, mpu1)) ↔ _
      constructor
      · rintro ⟨mpu1, h⟩
        cases hw : walk (mem.addr + mem.size) (MPU_REGIONS - 1 + 1) 0 mem.addr with
        | none => rw [hw] at h; simp at h
        | some p =>
          obtain ⟨ret1, rs⟩ := p
          rw [hw] at h
          simp only [Option.map_some', Option.some.injEq, Prod.mk.injEq] at h
          obtain ⟨rfl, -⟩ := h
          exact ⟨rs, rfl⟩
      · rintro ⟨rs, hw⟩
        rw [hw]
        exact ⟨_, rfl⟩
    rw [hstep, key]
    constructor
    · rintro ⟨a, r, next, ha, hs, hlt⟩
      have hinv := try_fit_addr_inv (mem.addr + mem.size) (fun a => a ≤ mem.addr + mem.size)
        (fun _ _ _ _ _ h => Nat.le_of_lt h) _ mem.addr a (by omega) ha
      obtain ⟨-, -, -, hnx, -, -⟩ := try_fit_slot_normal (by omega) hs
      exact ⟨a, r, next, ha, hs, by omega⟩
    · rintro ⟨a, r, next, ha, hs, hlt⟩
      have hinv := try_fit_addr_inv (mem.addr + mem.size) (fun a => a ≤ mem.addr + mem.size)
        (fun _ _ _ _ _ h => Nat.le_of_lt h) _ mem.addr a (by omega) ha
      obtain ⟨-, -, -, hnx, -, -⟩ := try_fit_slot_normal (by omega) hs
      exact ⟨a, r, next, ha, hs, by omega⟩
  · intro mpu1 h j hj
    obtain ⟨rs, hw, -, h0, htake, hmem⟩ := try_fit_slots hlen h
    rw [he] at hw
    have hlen8 := h0 rfl
    have hall := walk_zero_all (mem.addr + mem.size) hm _ _ _ rs (by omega) hw
    have hjl : j < (mpu1.regions.take rs.length).length := by rw [htake, hlen8]; exact hj
    have hjl2 : j < mpu1.regions.length := by
      rw [List.length_take] at hjl
      omega
    refine ⟨mpu1.regions[j], List.getElem?_eq_getElem hjl2, ?_⟩
    exact hall _ (hmem j _ (by omega) (List.getElem?_eq_getElem hjl2))
  · intro hs0
    unfold try_fit
    rw [he, hs0, Nat.add_zero]
    show try_fit_loop mem.addr (7 + 1) 0 mem.addr mpu = some (-1, mpu)
    rw [try_fit_loop, try_fit_slot_empty (by omega)]

/-- C14 as amended at an empty block at `0x20000020`. -/
theorem try_fit_exhausted_witness :
    mpu_zero.regions.length = MPU_REGIONS ∧
    (0x20000020 : Nat) + 0 < WORD - 2 ^ 32 ∧
    try_fit mpu_zero { name := "empty", addr := 0x20000020, size := 0 } =
      some (-1, mpu_zero) :=
  ⟨rfl, by decide,
    (try_fit_exhausted mpu_zero { name := "empty", addr := 0x20000020, size := 0 } rfl
      (by decide)).2.2 rfl⟩

/-- C14 fails at the top of the address space: the empty block `top_empty_blk` yields 0,
not -1; and the block `top_blk` yields 0 although slot 0 holds `{0, 0, 0}` instead of the
region `srd_fit` accepted. -/
theorem try_fit_exhausted_counterexample :
    top_empty_blk.size = 0 ∧ top_empty_blk.addr + top_empty_blk.size < WORD ∧
    (try_fit mpu_zero top_empty_blk).map Prod.fst = some 0 ∧
    (try_fit mpu_sentinel top_blk).map Prod.fst = some 0 ∧
    try_fit_slot top_blk.addr (add64 top_blk.addr top_blk.size) =
      some (slot_t.chosen zero_region 0) ∧
    srd_fit top_blk.addr (add64 top_blk.addr top_blk.size) =
      some (true, { base_addr := 2 ^ 64 - 32, size := 32, srd := 1 }) := by
  refine ⟨rfl, by decide, rfl, rfl, rfl, rfl⟩

/-- C16 as amended (array after a failure): when `try_fit` returns -1, nothing fits at
some slot `k < 8` the loop reaches; slots `0 .. k-1` hold the regions chosen before, slots
`k .. 7` are as they were before the call, and the whole array is unchanged when `k = 0`. -/
theorem try_fit_failure_slots (mpu : mpu_t) (mem : mem_blk_t) (mpu1 : mpu_t)
    (hlen : mpu.regions.length = MPU_REGIONS) (h : try_fit mpu mem = some (-1, mpu1)) :
    ∃ k, k < MPU_REGIONS ∧
      (∃ a, try_fit_addr (add64 mem.addr mem.size) k mem.addr = some a ∧
        try_fit_slot a (add64 mem.addr mem.size) = some slot_t.unfittable) ∧
      (∀ j, j < k → ∃ a r next,
        try_fit_addr (add64 mem.addr mem.size) j mem.addr = some a ∧
        try_fit_slot a (add64 mem.addr mem.size) = some (slot_t.chosen r next) ∧
        mpu1.regions[j]? = some r) ∧
      (∀ j, k ≤ j → mpu1.regions[j]? = mpu.regions[j]?) ∧
      (k = 0 → mpu1 = mpu) := by
  unfold try_fit at h
  rw [try_fit_loop_eq_walk] at h
  cases hw : walk (add64 mem.addr mem.size) MPU_REGIONS 0 mem.addr with
  | none => rw [hw] at h; simp at h
  | some p =>
    obtain ⟨ret1, rs⟩ := p
    rw [hw] at h
    simp only [Option.map_some', Option.some.injEq, Prod.mk.injEq] at h
    obtain ⟨rfl, rfl⟩ := h
    obtain ⟨hl, a, ha, hu⟩ := walk_fail _ _ _ _ _ hw
    refine ⟨rs.length, hl, ⟨a, ha, hu⟩, ?_, ?_, ?_⟩
    · intro j hj
      have hget : rs[j]? = some rs[j] := List.getElem?_eq_getElem hj
      obtain ⟨a1, next, ha1, hs1⟩ := walk_trace _ _ _ _ _ _ hw j _ hget
      refine ⟨a1, rs[j], next, ha1, hs1, ?_⟩
      show (overwrite mpu.regions 0 rs)[j]? = some rs[j]
      rw [overwrite_getElem? rs mpu.regions 0 j (by omega), if_pos (by omega)]
      exact hget
    · intro j hj
      show (overwrite mpu.regions 0 rs)[j]? = mpu.regions[j]?
      rw [overwrite_getElem? rs mpu.regions 0 j (by omega), if_neg (by omega)]
    · intro hk
      have hnil : rs = [] := List.length_eq_zero.1 hk
      subst hnil
      rfl

/-- C16 as amended at the block `short_blk`. -/
theorem try_fit_failure_slots_witness :
    mpu_zero.regions.length = MPU_REGIONS ∧
    try_fit mpu_zero short_blk = some (-1, short_mpu) ∧
    ∃ k, k < MPU_REGIONS ∧ ∀ j, k ≤ j → short_mpu.regions[j]? = mpu_zero.regions[j]? := by
  refine ⟨rfl, rfl, ?_⟩
  obtain ⟨k, hk, -, -, h, -⟩ := try_fit_failure_slots mpu_zero short_blk short_mpu rfl rfl
  exact ⟨k, hk, h⟩

/-- C16 fails for the block `short_blk`: `try_fit` returns -1 after it has copied
`{0, 32, 0}` into slot 0. -/
theorem try_fit_failure_slots_counterexample :
    try_fit mpu_zero short_blk = some (-1, short_mpu) ∧
    mpu_zero.regions[0]? = some zero_region ∧
    short_mpu.regions[0]? = some { base_addr := 0, size := 32, srd := 0 } ∧
    short_mpu ≠ mpu_zero := by
  refine ⟨rfl, rfl, rfl, by decide⟩

end MpuLayouter
